import Mathlib

/-!
Verification of the dependency-graph engine of `main.py`: the `DependencyGraph`
class with its DFS builder (`build_graph_dfs`), cycle recording, transitive
closure (`get_all_dependencies`), Kahn topological sort (`get_load_order`) and
DOT serialization (`to_dot`).  Package identifiers are strings; the pluggable
`DependencyProvider` is modelled as a finite association list mapping a package
to either `some deps` (a successful lookup) or `none` (a `DependencyError`
raised by the provider and swallowed by the builder).
-/

namespace DepViz

abbrev Pkg := String

/-- First-match association-list lookup (models Python dict lookup). -/
def lookupA {α : Type} : List (Pkg × α) → Pkg → Option α
  | [], _ => none
  | (k, v) :: rest, x => if k = x then some v else lookupA rest x

/-- `self.graph.get(p, [])`: the dependency list stored for `p`. -/
def depsOf (G : List (Pkg × List Pkg)) (p : Pkg) : List Pkg :=
  (lookupA G p).getD []

/-- `self.graph.keys()` in insertion order. -/
def keysOf (G : List (Pkg × List Pkg)) : List Pkg :=
  G.map Prod.fst

/-- All dependency targets stored in the adjacency map (with multiplicity). -/
def targetsOf (G : List (Pkg × List Pkg)) : List Pkg :=
  (G.map Prod.snd).flatten

/-- `defaultdict(list)`'s `graph[p].append(d)`: append `d` to `p`'s list,
creating the entry (at the end, = dict insertion order) if missing. -/
def assocAppend : List (Pkg × List Pkg) → Pkg → Pkg → List (Pkg × List Pkg)
  | [], p, d => [(p, [d])]
  | (k, v) :: rest, p, d =>
    if k = p then (k, v ++ [d]) :: rest else (k, v) :: assocAppend rest p d

/-- Insert into a Python-set modelled as a duplicate-free list (no-op when
already present; insertion order retained). -/
def insertPkg (l : List Pkg) (x : Pkg) : List Pkg :=
  if x ∈ l then l else l ++ [x]

/-- The `DependencyGraph` data: adjacency map `self.graph` (a
`defaultdict(list)` in dict insertion order), the node set `self.all_packages`
(a Python set, modelled as a duplicate-free list) and the recorded cycle paths
`self.cycles`. -/
structure DependencyGraph where
  graph : List (Pkg × List Pkg)
  all_packages : List Pkg
  cycles : List (List Pkg)
deriving DecidableEq, Repr

/-- `DependencyGraph.__init__`. -/
def emptyGraph : DependencyGraph :=
  { graph := [], all_packages := [], cycles := [] }

/-- `DependencyGraph.add_dependency`. -/
def add_dependency (g : DependencyGraph) (package dependency : Pkg) :
    DependencyGraph :=
  { graph := assocAppend g.graph package dependency
    all_packages := insertPkg (insertPkg g.all_packages package) dependency
    cycles := g.cycles }

/-- `DependencyGraph.has_cycles`. -/
def has_cycles (g : DependencyGraph) : Bool :=
  !g.cycles.isEmpty

/-- `DependencyGraph.get_cycles`. -/
def get_cycles (g : DependencyGraph) : List (List Pkg) :=
  g.cycles

/-- `DependencyGraph.get_all_nodes` (a copy of `self.all_packages`). -/
def get_all_nodes (g : DependencyGraph) : List Pkg :=
  g.all_packages

/-- A dependency provider: finite table from package to `some deps`
(successful `get_dependencies`) or `none` (the call raises `DependencyError`).
A package without a table entry also fails its lookup. -/
abbrev Provider := List (Pkg × Option (List Pkg))

/-- `dependency_reader.get_dependencies(x)`: `some deps` or `none` = raise. -/
def getDeps (P : Provider) (x : Pkg) : Option (List Pkg) :=
  match lookupA P x with
  | some r => r
  | none => none

/-- The mutable state of `build_graph_dfs`: the graph under construction plus
the traversal sets `visited`, `recursion_stack` and the ordered
`current_path`. -/
structure BuildState where
  g : DependencyGraph
  visited : List Pkg
  stack : List Pkg
  path : List Pkg
deriving DecidableEq, Repr

/-- One step of the `for dep in dependencies` loop body before recursing:
`self.add_dependency(package, dep)`. -/
def addEdgeSt (st : BuildState) (p d : Pkg) : BuildState :=
  { st with g := add_dependency st.g p d }

/-- The `for dep in dependencies: self.add_dependency(package, dep); dfs(dep)`
loop, with the recursive call abstracted as `f`. -/
def processList (f : BuildState → Pkg → BuildState) (pkg : Pkg) :
    BuildState → List Pkg → BuildState
  | st, [] => st
  | st, d :: rest => processList f pkg (f (addEdgeSt st pkg d) d) rest

/-- `visited.add(package); recursion_stack.add(package);
current_path.append(package)`. -/
def markNode (st : BuildState) (package : Pkg) : BuildState :=
  { st with visited := st.visited ++ [package]
            stack := package :: st.stack
            path := st.path ++ [package] }

/-- `recursion_stack.remove(package); current_path.pop()`. -/
def unmarkNode (st : BuildState) (package : Pkg) : BuildState :=
  { st with stack := st.stack.erase package, path := st.path.dropLast }

/-- The recursive `dfs` of `build_graph_dfs`, with explicit fuel (the Python
recursion terminates because the reachable package set is finite; the fuel
chosen in `build_graph_dfs` is proved large enough that the `0` branch is
never taken for the arguments that occur). -/
def dfsAux (P : Provider) : Nat → BuildState → Pkg → BuildState
  | 0, st, _ => st
  | fuel + 1, st, package =>
    if package ∈ st.stack then
      -- cycle: reconstruct from current_path and record if new
      let cycle := st.path.drop (st.path.indexOf package) ++ [package]
      if cycle ∈ st.g.cycles then st
      else { st with g := { st.g with cycles := st.g.cycles ++ [cycle] } }
    else if package ∈ st.visited then st
    else
      unmarkNode
        (match getDeps P package with
         | none => markNode st package  -- DependencyError swallowed
         | some deps =>
           processList (dfsAux P fuel) package (markNode st package) deps)
        package

/-- Every package the DFS can ever be called on: the root plus every package
mentioned in some successful provider answer. -/
def univList (P : Provider) (root : Pkg) : List Pkg :=
  (root :: (P.map (fun pr => pr.2.getD [])).flatten).dedup

/-- `DependencyGraph.build_graph_dfs`: run the DFS from the root on a fresh
traversal state, returning the populated graph. -/
def build_graph_dfs (P : Provider) (root_package : Pkg) : DependencyGraph :=
  (dfsAux P ((univList P root_package).length + 1)
    { g := emptyGraph, visited := [], stack := [], path := [] }
    root_package).g

/-- The `for dep in graph.get(pkg, []): collect_deps(dep)` loop of
`get_all_dependencies`, with the recursive call abstracted as `f`. -/
def collectList (f : List Pkg → Pkg → List Pkg) :
    List Pkg → List Pkg → List Pkg
  | visited, [] => visited
  | visited, d :: rest => collectList f (f visited d) rest

/-- The recursive `collect_deps` of `get_all_dependencies`, fuelled. -/
def collectAux (G : List (Pkg × List Pkg)) : Nat → List Pkg → Pkg → List Pkg
  | 0, visited, _ => visited
  | fuel + 1, visited, pkg =>
    if pkg ∈ visited then visited
    else collectList (collectAux G fuel) (visited ++ [pkg]) (depsOf G pkg)

/-- Fuel sufficient for `collectAux`: every argument it is ever called on is a
stored dependency target. -/
def collectFuel (G : List (Pkg × List Pkg)) : Nat :=
  (targetsOf G).dedup.length + 1

/-- `DependencyGraph.get_all_dependencies`: the `visited` set (in insertion
order) after running `collect_deps` over the package's direct dependencies. -/
def get_all_dependencies (g : DependencyGraph) (package : Pkg) : List Pkg :=
  collectList (collectAux g.graph (collectFuel g.graph)) []
    (depsOf g.graph package)

/-- Number of stored dependency targets not yet in the visited list: the
termination/sufficiency measure for `collect_deps`. -/
def unseenT (G : List (Pkg × List Pkg)) (v : List Pkg) : Nat :=
  ((targetsOf G).toFinset \ v.toFinset).card

/-- Lexicographic strict comparison of character lists by Unicode code point:
Python's `<` on strings. -/
def listLtCh : List Char → List Char → Bool
  | _, [] => false
  | [], _ :: _ => true
  | a :: as, b :: bs =>
    if a < b then true
    else if b < a then false
    else listLtCh as bs

/-- Python's `<=` on strings (total lexicographic order). -/
def pkgLe (a b : Pkg) : Bool :=
  !listLtCh b.data a.data

/-- `pkgLe` as a relation, for `queue.sort()`. -/
def pkgLeP (a b : Pkg) : Prop :=
  pkgLe a b = true

instance : DecidableRel pkgLeP := fun a b =>
  inferInstanceAs (Decidable (pkgLe a b = true))

/-- The two `DependencyError` shapes `get_load_order` can raise: the cyclic
precondition failure and the postcondition (length-mismatch) failure carrying
the unprocessed nodes. -/
inductive LoadOrderErr where
  | cyclic : LoadOrderErr
  | incomplete (remaining : List Pkg) : LoadOrderErr
deriving DecidableEq, Repr

/-- Pointwise update of a `defaultdict` modelled as a total function. -/
def updateF {α : Type} (f : Pkg → α) (k : Pkg) (v : α) : Pkg → α :=
  fun x => if x = k then v else f x

/-- One step of the inner loop of the reverse-graph pass:
`reverse_graph[dep].append(package); in_degree[package] += 1`. -/
def revStep (package : Pkg) (acc2 : (Pkg → List Pkg) × (Pkg → Int))
    (dep : Pkg) : (Pkg → List Pkg) × (Pkg → Int) :=
  (updateF acc2.1 dep (acc2.1 dep ++ [package]),
   updateF acc2.2 package (acc2.2 package + 1))

/-- The `for package, deps in self.graph.items(): for dep in deps: ...` pass
building `reverse_graph` and `in_degree`. -/
def buildRev (items : List (Pkg × List Pkg)) :
    (Pkg → List Pkg) × (Pkg → Int) :=
  items.foldl (fun acc pr => pr.2.foldl (revStep pr.1) acc)
    (fun _ => [], fun _ => 0)

/-- The `for dependent in reverse_graph[node]` loop: decrement each
dependent's in-degree, collecting (in order) those that reach zero. -/
def decAll (deg : Pkg → Int) : List Pkg → (Pkg → Int) × List Pkg
  | [] => (deg, [])
  | dep :: rest =>
    let v := deg dep - 1
    let r := decAll (updateF deg dep v) rest
    if v = 0 then (r.1, dep :: r.2) else r

/-- The `while queue` loop of Kahn's algorithm: sort the queue, pop the
smallest, emit it, decrement its dependents.  One fuel unit per iteration;
`get_load_order` supplies fuel `all_nodes.length`, enough because each
iteration emits a distinct node of `all_nodes`. -/
def popLoop (rg : Pkg → List Pkg) :
    Nat → (Pkg → Int) → List Pkg → List Pkg → List Pkg
  | 0, _, _, result => result
  | fuel + 1, deg, queue, result =>
    match List.insertionSort pkgLeP queue with
    | [] => result
    | node :: rest =>
      let r := decAll deg (rg node)
      popLoop rg fuel r.1 (rest ++ r.2) (result ++ [node])

/-- `DependencyGraph.get_load_order`. -/
def get_load_order (g : DependencyGraph) (root_package : Pkg) :
    Except LoadOrderErr (List Pkg) :=
  if has_cycles g then .error .cyclic
  else
    let all_nodes := insertPkg (get_all_nodes g) root_package
    let rd := buildRev g.graph
    let queue := all_nodes.filter (fun n => rd.2 n = 0)
    let result := popLoop rd.1 all_nodes.length rd.2 queue []
    if result.length ≠ all_nodes.length then
      .error (.incomplete (all_nodes.filter (fun n => n ∉ result)))
    else .ok result

/-- The fixed header lines of `to_dot` (up to the root highlight). -/
def dotHeader (root_package : Pkg) : List String :=
  ["digraph dependency_graph \x7b",
   "    rankdir=TB;",
   "    node [shape=box, style=rounded];",
   "",
   "    \"" ++ root_package ++ "\" [color=blue, fontcolor=blue, penwidth=2];",
   ""]

/-- One `"p" -> "d"` edge statement, red when some recorded cycle contains
both endpoints. -/
def edgeLine (cycles : List (List Pkg)) (package dep : Pkg) : String :=
  if cycles.any (fun c => package ∈ c ∧ dep ∈ c) then
    "    \"" ++ package ++ "\" -> \"" ++ dep ++ "\" [color=red, penwidth=2];"
  else
    "    \"" ++ package ++ "\" -> \"" ++ dep ++ "\";"

/-- All edge statements, in `self.graph.items()` iteration order. -/
def edgeLines (g : DependencyGraph) : List String :=
  (g.graph.map (fun pr => pr.2.map (fun dep => edgeLine g.cycles pr.1 dep))).flatten

/-- The `for node in isolated: if node != root_package` loop over a given
enumeration of the isolated-node set. -/
def isolatedLines (root_package : Pkg) (iso : List Pkg) : List String :=
  (iso.filter (fun n => n ≠ root_package)).map
    (fun n => "    \"" ++ n ++ "\";")

/-- `DependencyGraph.to_dot`, parameterized by the iteration order `iso` in
which Python's set subtraction happens to enumerate the isolated nodes (a
genuine run-to-run nondeterminism of CPython sets). -/
def to_dotWith (g : DependencyGraph) (root_package : Pkg) (iso : List Pkg) :
    String :=
  String.intercalate "\n"
    (dotHeader root_package ++ edgeLines g ++ isolatedLines root_package iso
      ++ ["\x7d"])

/-- The isolated-node set `all_nodes - graph.keys() - targets`, enumerated
canonically in `all_nodes` order. -/
def canonicalIsolated (g : DependencyGraph) (root_package : Pkg) : List Pkg :=
  (insertPkg (get_all_nodes g) root_package).filter
    (fun n => n ∉ keysOf g.graph ∧ n ∉ targetsOf g.graph)

/-- `DependencyGraph.to_dot` with the canonical isolated-node enumeration. -/
def to_dot (g : DependencyGraph) (root_package : Pkg) : String :=
  to_dotWith g root_package (canonicalIsolated g root_package)

/-- Edge relation of the adjacency map: `p` directly depends on `d`. -/
def edgeIn (G : List (Pkg × List Pkg)) (p d : Pkg) : Prop :=
  d ∈ depsOf G p

/-- Transitive reachability along stored edges. -/
def Reach (G : List (Pkg × List Pkg)) : Pkg → Pkg → Prop :=
  Relation.ReflTransGen (edgeIn G)

/-- Net effect of any portion of the DFS on the traversal state: the
recursion stack and current path are restored, `visited` and `cycles` only
grow on the right, every adjacency list only grows on the right, and the node
set only grows. -/
def Ext (st st2 : BuildState) : Prop :=
  st2.stack = st.stack ∧ st2.path = st.path ∧
  (∃ t, st2.visited = st.visited ++ t) ∧
  (∃ t, st2.g.cycles = st.g.cycles ++ t) ∧
  (∀ q, ∃ t, depsOf st2.g.graph q = depsOf st.g.graph q ++ t) ∧
  (∀ x, x ∈ st.g.all_packages → x ∈ st2.g.all_packages)

/-- Invariant tying a DFS traversal state to the list `L` of already finished
nodes in finishing order: `L` enumerates `visited` minus the recursion stack
without duplicates, every stored edge whose source is finished points to an
earlier finished node, and every stored edge has a visited source. -/
def TopoInv (st : BuildState) (L : List Pkg) : Prop :=
  L.Nodup ∧
  (∀ x, x ∈ L ↔ (x ∈ st.visited ∧ x ∉ st.stack)) ∧
  (∀ p d, edgeIn st.g.graph p d → p ∈ L →
     d ∈ L ∧ L.indexOf d < L.indexOf p) ∧
  (∀ p d, edgeIn st.g.graph p d → p ∈ st.visited)

/-- A finite universe covering every package a provider answer can mention. -/
def GoodU (P : Provider) (U : Finset Pkg) : Prop :=
  ∀ x l, getDeps P x = some l → ∀ d ∈ l, d ∈ U

/-- Packages of `U` not yet visited: the DFS recursion measure. -/
def unseenU (U : Finset Pkg) (visited : List Pkg) : Nat :=
  (U \ visited.toFinset).card

/-- Replay of an arbitrary sequence of `add_dependency` calls on a fresh
graph. -/
def addMany (ops : List (Pkg × Pkg)) : DependencyGraph :=
  ops.foldl (fun g pr => add_dependency g pr.1 pr.2) emptyGraph

/-- Every recorded node is the source or the target of some stored edge. -/
def SrcTgt (g : DependencyGraph) : Prop :=
  ∀ x ∈ g.all_packages, x ∈ keysOf g.graph ∨ x ∈ targetsOf g.graph

instance : DecidableEq (Except LoadOrderErr (List Pkg)) := fun x y =>
  match x, y with
  | .ok a, .ok b =>
    if h : a = b then .isTrue (by rw [h]) else .isFalse (by simp [h])
  | .error a, .error b =>
    if h : a = b then .isTrue (by rw [h]) else .isFalse (by simp [h])
  | .ok _, .error _ => .isFalse (by simp)
  | .error _, .ok _ => .isFalse (by simp)

/-- Spec scenario A: `A -> [B, C], B -> [D], C -> [D], D -> []`. -/
def scenarioA : Provider :=
  [("A", some ["B", "C"]), ("B", some ["D"]), ("C", some ["D"]),
   ("D", some [])]

/-- Spec scenario B: `A -> [B], B -> [A]`. -/
def scenarioB : Provider :=
  [("A", some ["B"]), ("B", some ["A"])]

/-- Spec scenario C: the lookup for `X` fails; `X` is a dependency of `A`
discovered between siblings `B` and `C`. -/
def scenarioC : Provider :=
  [("A", some ["B", "X", "C"]), ("B", some []), ("C", some [])]

/-- Scenario C with `X`'s lookup succeeding with zero dependencies instead of
failing. -/
def scenarioCok : Provider :=
  [("A", some ["B", "X", "C"]), ("B", some []), ("C", some []),
   ("X", some [])]

/-- A provider whose answer for `A` lists the same dependency twice. -/
def scenarioDup : Provider :=
  [("A", some ["B", "B"]), ("B", some [])]

/-- A traversal state in which `A` is on the recursion stack (as produced two
levels into the scenario-B walk), used to exercise the cycle-closing branch of
`dfs` at a concrete input. -/
def stOnStack : BuildState :=
  { g := emptyGraph, visited := ["A", "B"], stack := ["B", "A"],
    path := ["A", "B"] }

/-- Every stored edge list is duplicate-free, and a package that the walk has
not yet visited has no outgoing edges yet. -/
def NodupInv (st : BuildState) : Prop :=
  (∀ p, (depsOf st.g.graph p).Nodup) ∧
  (∀ p, p ∉ st.visited → depsOf st.g.graph p = [])



/-! ### Order lemmas for the queue sort -/

theorem listLtCh_irrefl : ∀ x : List Char, listLtCh x x = false := by
  intro x
  induction x with
  | nil => rfl
  | cons a as ih => simp [listLtCh, lt_irrefl, ih]

theorem listLtCh_asymm :
    ∀ {x y : List Char}, listLtCh x y = true → listLtCh y x = false := by
  intro x
  induction x with
  | nil =>
    intro y h
    cases y with
    | nil => simp [listLtCh] at h
    | cons b bs => simp [listLtCh]
  | cons a as ih =>
    intro y h
    cases y with
    | nil => simp [listLtCh] at h
    | cons b bs =>
      rcases lt_trichotomy a b with hab | hab | hab
      · simp [listLtCh, hab, not_lt_of_gt hab]
      · subst hab
        simp only [listLtCh, lt_irrefl, if_false] at h ⊢
        exact ih h
      · simp [listLtCh, hab, not_lt_of_gt hab] at h

theorem listLtCh_eq_of_both_false :
    ∀ {x y : List Char}, listLtCh x y = false → listLtCh y x = false → x = y := by
  intro x
  induction x with
  | nil =>
    intro y h _
    cases y with
    | nil => rfl
    | cons b bs => simp [listLtCh] at h
  | cons a as ih =>
    intro y h h2
    cases y with
    | nil => simp [listLtCh] at h2
    | cons b bs =>
      rcases lt_trichotomy a b with hab | hab | hab
      · simp [listLtCh, hab] at h
      · subst hab
        simp only [listLtCh, lt_irrefl, if_false] at h h2
        exact congrArg (a :: ·) (ih h h2)
      · simp [listLtCh, hab] at h2

theorem pkgLe_total (a b : Pkg) : pkgLeP a b ∨ pkgLeP b a := by
  unfold pkgLeP pkgLe
  cases h : listLtCh b.data a.data with
  | false => left; simp [h]
  | true => right; simp [listLtCh_asymm h]

theorem pkgLe_refl (a : Pkg) : pkgLeP a a := by
  unfold pkgLeP pkgLe
  simp [listLtCh_irrefl]

theorem listLtCh_trans :
    ∀ {x y z : List Char}, listLtCh x y = true → listLtCh y z = true →
      listLtCh x z = true := by
  intro x
  induction x with
  | nil =>
    intro y z h1 h2
    cases y with
    | nil => simp [listLtCh] at h1
    | cons b bs =>
      cases z with
      | nil => simp [listLtCh] at h2
      | cons c cs => simp [listLtCh]
  | cons a as ih =>
    intro y z h1 h2
    cases y with
    | nil => simp [listLtCh] at h1
    | cons b bs =>
      cases z with
      | nil => simp [listLtCh] at h2
      | cons c cs =>
        rcases lt_trichotomy a b with hab | hab | hab
        · rcases lt_trichotomy b c with hbc | hbc | hbc
          · simp [listLtCh, lt_trans hab hbc]
          · subst hbc; simp [listLtCh, hab]
          · simp [listLtCh, hbc, not_lt_of_gt hbc] at h2
        · subst hab
          rcases lt_trichotomy a c with hac | hac | hac
          · simp [listLtCh, hac]
          · subst hac
            simp only [listLtCh, lt_irrefl, if_false] at h1 h2 ⊢
            exact ih h1 h2
          · simp [listLtCh, hac, not_lt_of_gt hac] at h2
        · simp [listLtCh, hab, not_lt_of_gt hab] at h1

theorem pkgLe_trans {a b c : Pkg} (h1 : pkgLeP a b) (h2 : pkgLeP b c) :
    pkgLeP a c := by
  unfold pkgLeP pkgLe at h1 h2 ⊢
  simp only [Bool.not_eq_true', Bool.not_eq_false] at h1 h2 ⊢
  cases hca : listLtCh c.data a.data with
  | false => rfl
  | true =>
    exfalso
    cases hbc : listLtCh b.data c.data with
    | false =>
      have hbceq : b.data = c.data := listLtCh_eq_of_both_false hbc h2
      rw [← hbceq] at hca
      rw [hca] at h1
      simp at h1
    | true =>
      have : listLtCh b.data a.data = true := listLtCh_trans hbc hca
      rw [this] at h1
      simp at h1

theorem sort_head_min (queue : List Pkg) (hq : queue ≠ []) :
    ∃ m rest, List.insertionSort pkgLeP queue = m :: rest ∧ m ∈ queue ∧
      ∀ x ∈ queue, pkgLeP m x := by
  have hperm := List.perm_insertionSort pkgLeP queue
  cases hs : List.insertionSort pkgLeP queue with
  | nil =>
    rw [hs] at hperm
    exact absurd (List.Perm.symm hperm).eq_nil hq
  | cons m rest =>
    rw [hs] at hperm
    have hsorted : List.Sorted pkgLeP (m :: rest) := by
      rw [← hs]
      exact @List.sorted_insertionSort Pkg pkgLeP _ ⟨pkgLe_total⟩
        ⟨fun _ _ _ => pkgLe_trans⟩ queue
    refine ⟨m, rest, rfl, hperm.mem_iff.mp (List.mem_cons_self m rest), ?_⟩
    intro x hx
    rcases List.mem_cons.mp (hperm.mem_iff.mpr hx) with h | h
    · exact h ▸ pkgLe_refl m
    · exact List.rel_of_sorted_cons hsorted x h


/-! ### Unfolding equations and net-effect lemmas for the DFS -/

theorem dfs_stack_step (P : Provider) (fuel : Nat) (st : BuildState)
    (package : Pkg) (h : package ∈ st.stack) :
    dfsAux P (fuel + 1) st package =
      (if st.path.drop (st.path.indexOf package) ++ [package] ∈ st.g.cycles
       then st
       else { st with g := { st.g with cycles :=
         st.g.cycles ++ [st.path.drop (st.path.indexOf package) ++ [package]] } }) := by
  simp only [dfsAux, if_pos h]

theorem dfs_visited_step (P : Provider) (fuel : Nat) (st : BuildState)
    (package : Pkg) (h1 : package ∉ st.stack) (h2 : package ∈ st.visited) :
    dfsAux P (fuel + 1) st package = st := by
  simp only [dfsAux, if_neg h1, if_pos h2]

theorem dfs_fresh_step (P : Provider) (fuel : Nat) (st : BuildState)
    (package : Pkg) (h1 : package ∉ st.stack) (h2 : package ∉ st.visited) :
    dfsAux P (fuel + 1) st package =
      unmarkNode
        (match getDeps P package with
         | none => markNode st package
         | some deps =>
           processList (dfsAux P fuel) package (markNode st package) deps)
        package := by
  simp only [dfsAux, if_neg h1, if_neg h2]

theorem mem_insertPkg {l : List Pkg} {x y : Pkg} :
    x ∈ insertPkg l y ↔ x ∈ l ∨ x = y := by
  by_cases h : y ∈ l
  · simp only [insertPkg, if_pos h]
    constructor
    · exact Or.inl
    · rintro (hx | rfl)
      · exact hx
      · exact h
  · simp [insertPkg, if_neg h]

theorem assocAppend_cons_eq {rest : List (Pkg × List Pkg)} {k p d : Pkg}
    {v : List Pkg} (hk : k = p) :
    assocAppend ((k, v) :: rest) p d = (k, v ++ [d]) :: rest := by
  simp [assocAppend, hk]

theorem assocAppend_cons_ne {rest : List (Pkg × List Pkg)} {k p d : Pkg}
    {v : List Pkg} (hk : ¬ k = p) :
    assocAppend ((k, v) :: rest) p d = (k, v) :: assocAppend rest p d := by
  simp [assocAppend, hk]

theorem depsOf_cons {rest : List (Pkg × List Pkg)} {k q : Pkg}
    {v : List Pkg} :
    depsOf ((k, v) :: rest) q = if k = q then v else depsOf rest q := by
  by_cases h : k = q
  · simp [depsOf, lookupA, h]
  · simp [depsOf, lookupA, h]

theorem depsOf_assocAppend (G : List (Pkg × List Pkg)) (p d q : Pkg) :
    depsOf (assocAppend G p d) q =
      if q = p then depsOf G q ++ [d] else depsOf G q := by
  induction G with
  | nil =>
    by_cases h : q = p
    · subst h
      simp [assocAppend, depsOf, lookupA]
    · have h2 : ¬ p = q := fun hh => h hh.symm
      simp [assocAppend, depsOf, lookupA, h, h2]
  | cons kv rest ih =>
    obtain ⟨k, v⟩ := kv
    by_cases hk : k = p
    · rw [assocAppend_cons_eq hk]
      subst hk
      by_cases hq : q = k
      · subst hq
        simp [depsOf_cons]
      · have h2 : ¬ k = q := fun hh => hq hh.symm
        simp [depsOf_cons, h2, hq]
    · rw [assocAppend_cons_ne hk]
      by_cases hq : q = k
      · subst hq
        have hqp : ¬ q = p := hk
        simp [depsOf_cons, hqp]
      · have h2 : ¬ k = q := fun hh => hq hh.symm
        rw [depsOf_cons, if_neg h2, depsOf_cons, if_neg h2]
        exact ih

theorem mem_keysOf_assocAppend {G : List (Pkg × List Pkg)} {p d x : Pkg} :
    x ∈ keysOf (assocAppend G p d) ↔ x ∈ keysOf G ∨ x = p := by
  induction G with
  | nil => simp [assocAppend, keysOf]
  | cons kv rest ih =>
    obtain ⟨k, v⟩ := kv
    by_cases hk : k = p
    · rw [assocAppend_cons_eq hk]
      subst hk
      simp only [keysOf, List.map_cons, List.mem_cons]
      tauto
    · rw [assocAppend_cons_ne hk]
      simp only [keysOf, List.map_cons, List.mem_cons]
      have ih2 : x ∈ List.map Prod.fst (assocAppend rest p d) ↔
          x ∈ List.map Prod.fst rest ∨ x = p := ih
      rw [ih2]
      tauto

theorem mem_targetsOf_assocAppend {G : List (Pkg × List Pkg)} {p d x : Pkg} :
    x ∈ targetsOf (assocAppend G p d) ↔ x ∈ targetsOf G ∨ x = d := by
  induction G with
  | nil => simp [assocAppend, targetsOf]
  | cons kv rest ih =>
    obtain ⟨k, v⟩ := kv
    by_cases hk : k = p
    · rw [assocAppend_cons_eq hk]
      simp only [targetsOf, List.map_cons, List.flatten_cons, List.mem_append,
        List.mem_singleton]
      tauto
    · rw [assocAppend_cons_ne hk]
      simp only [targetsOf, List.map_cons, List.flatten_cons, List.mem_append]
      have ih2 : x ∈ (List.map Prod.snd (assocAppend rest p d)).flatten ↔
          x ∈ (List.map Prod.snd rest).flatten ∨ x = d := ih
      rw [ih2]
      tauto

theorem ext_refl (st : BuildState) : Ext st st :=
  ⟨rfl, rfl, ⟨[], by simp⟩, ⟨[], by simp⟩, fun _ => ⟨[], by simp⟩,
   fun _ h => h⟩

theorem ext_trans {a b c : BuildState} (h1 : Ext a b) (h2 : Ext b c) :
    Ext a c := by
  obtain ⟨s1, p1, ⟨v1, hv1⟩, ⟨c1, hc1⟩, g1, a1⟩ := h1
  obtain ⟨s2, p2, ⟨v2, hv2⟩, ⟨c2, hc2⟩, g2, a2⟩ := h2
  refine ⟨s2.trans s1, p2.trans p1, ⟨v1 ++ v2, ?_⟩, ⟨c1 ++ c2, ?_⟩, ?_, ?_⟩
  · rw [hv2, hv1, List.append_assoc]
  · rw [hc2, hc1, List.append_assoc]
  · intro q
    obtain ⟨t1, ht1⟩ := g1 q
    obtain ⟨t2, ht2⟩ := g2 q
    exact ⟨t1 ++ t2, by rw [ht2, ht1, List.append_assoc]⟩
  · exact fun x hx => a2 x (a1 x hx)

theorem ext_addEdgeSt (st : BuildState) (p d : Pkg) :
    Ext st (addEdgeSt st p d) := by
  refine ⟨rfl, rfl, ⟨[], by simp [addEdgeSt]⟩,
    ⟨[], by simp [addEdgeSt, add_dependency]⟩, ?_, ?_⟩
  · intro q
    by_cases hq : q = p
    · exact ⟨[d], by simp [addEdgeSt, add_dependency, depsOf_assocAppend, hq]⟩
    · exact ⟨[], by simp [addEdgeSt, add_dependency, depsOf_assocAppend, hq]⟩
  · intro x hx
    simp only [addEdgeSt, add_dependency]
    exact mem_insertPkg.mpr (Or.inl (mem_insertPkg.mpr (Or.inl hx)))

theorem ext_processList (f : BuildState → Pkg → BuildState) (pkg : Pkg)
    (hf : ∀ st d, Ext st (f st d)) :
    ∀ (deps : List Pkg) (st : BuildState),
      Ext st (processList f pkg st deps) := by
  intro deps
  induction deps with
  | nil => intro st; exact ext_refl st
  | cons d rest ih =>
    intro st
    exact ext_trans (ext_trans (ext_addEdgeSt st pkg d) (hf _ d)) (ih _)

theorem ext_through_mark {st X : BuildState} {pkg : Pkg}
    (h : Ext (markNode st pkg) X) : Ext st (unmarkNode X pkg) := by
  obtain ⟨hs, hp, ⟨tv, hv⟩, ⟨tc, hc⟩, hg, ha⟩ := h
  refine ⟨?_, ?_, ⟨[pkg] ++ tv, ?_⟩, ⟨tc, hc⟩, hg, ha⟩
  · show X.stack.erase pkg = st.stack
    rw [hs]
    exact List.erase_cons_head pkg st.stack
  · show X.path.dropLast = st.path
    rw [hp]
    show (st.path ++ [pkg]).dropLast = st.path
    rw [List.dropLast_concat]
  · show X.visited = st.visited ++ ([pkg] ++ tv)
    rw [hv]
    show st.visited ++ [pkg] ++ tv = st.visited ++ ([pkg] ++ tv)
    rw [List.append_assoc]

theorem ext_dfsAux (P : Provider) :
    ∀ (fuel : Nat) (st : BuildState) (pkg : Pkg),
      Ext st (dfsAux P fuel st pkg) := by
  intro fuel
  induction fuel with
  | zero => intro st pkg; exact ext_refl st
  | succ fuel ih =>
    intro st pkg
    by_cases h1 : pkg ∈ st.stack
    · rw [dfs_stack_step P fuel st pkg h1]
      split_ifs with hc
      · exact ext_refl st
      · exact ⟨rfl, rfl, ⟨[], by simp⟩, ⟨_, rfl⟩, fun _ => ⟨[], by simp⟩,
          fun _ h => h⟩
    · by_cases h2 : pkg ∈ st.visited
      · rw [dfs_visited_step P fuel st pkg h1 h2]
        exact ext_refl st
      · rw [dfs_fresh_step P fuel st pkg h1 h2]
        apply ext_through_mark
        cases hd : getDeps P pkg with
        | none => exact ext_refl _
        | some deps => exact ext_processList _ _ (fun st d => ih st d) deps _

/-! ### Claim theorems: error handling and concrete algorithmic behavior -/

/-- C2: for every graph whose recorded cycle list is non-empty,
`get_load_order` fails with the cyclic-dependency error for any root
argument, while cycle presence is reported as data by `has_cycles` and
`get_cycles` (graph construction, a total function in this model, never fails
because of cycles). -/
theorem c2_cycles_fail_load_order_only (g : DependencyGraph)
    (root_package : Pkg) (h : g.cycles ≠ []) :
    get_load_order g root_package = .error .cyclic ∧
    has_cycles g = true ∧ get_cycles g = g.cycles := by
  have hc : has_cycles g = true := by
    simp [has_cycles, h]
  exact ⟨by simp [get_load_order, hc], hc, rfl⟩

theorem c2_witness :
    (build_graph_dfs scenarioB "A").cycles ≠ [] ∧
    (get_load_order (build_graph_dfs scenarioB "A") "Z" = .error .cyclic ∧
     has_cycles (build_graph_dfs scenarioB "A") = true ∧
     get_cycles (build_graph_dfs scenarioB "A") =
       (build_graph_dfs scenarioB "A").cycles) :=
  ⟨by decide, c2_cycles_fail_load_order_only _ "Z" (by decide)⟩

/-- C3: whenever `dfs` reaches a dependency `d` already on the recursion
stack, the recorded cycle is exactly the sub-path of `current_path` from
`d`'s position to the end with `d` appended again, appended to the cycle list
only when no identical sequence is already present; and building from the
scenario-B provider (`A -> [B], B -> [A]`) with root `A` records exactly the
one cycle path `[A, B, A]`. -/
theorem c3_cycle_reconstruction :
    (∀ (P : Provider) (fuel : Nat) (st : BuildState) (d : Pkg),
       d ∈ st.stack →
       dfsAux P (fuel + 1) st d =
         (if st.path.drop (st.path.indexOf d) ++ [d] ∈ st.g.cycles then st
          else { st with g :=
            { st.g with cycles :=
                st.g.cycles ++ [st.path.drop (st.path.indexOf d) ++ [d]] } })) ∧
    (build_graph_dfs scenarioB "A").cycles = [["A", "B", "A"]] := by
  constructor
  · intro P fuel st d hd
    simp only [dfsAux, if_pos hd]
  · decide

theorem c3_witness :
    ("A" : Pkg) ∈ stOnStack.stack ∧
    dfsAux scenarioB 1 stOnStack "A" =
      { stOnStack with g := { stOnStack.g with cycles := [["A", "B", "A"]] } } := by
  refine ⟨by decide, ?_⟩
  rw [c3_cycle_reconstruction.1 scenarioB 0 stOnStack "A" (by decide)]
  decide

/-- C5: `get_load_order` resolves ties canonically: in every iteration of the
Kahn loop the pending queue is sorted lexicographically and its least element
(with respect to the code-point order `pkgLeP`) is popped; concretely, on the
graph built from scenario A (`A -> [B, C], B -> [D], C -> [D], D -> []`) with
root `A` the returned order is exactly `[D, B, C, A]`. -/
theorem c5_lexicographic_tie_break :
    (∀ (rg : Pkg → List Pkg) (fuel : Nat) (deg : Pkg → Int)
       (queue result : List Pkg), queue ≠ [] →
       ∃ m rest, m ∈ queue ∧ (∀ x ∈ queue, pkgLeP m x) ∧
         List.insertionSort pkgLeP queue = m :: rest ∧
         popLoop rg (fuel + 1) deg queue result =
           popLoop rg fuel (decAll deg (rg m)).1
             (rest ++ (decAll deg (rg m)).2) (result ++ [m])) ∧
    get_load_order (build_graph_dfs scenarioA "A") "A" =
      .ok ["D", "B", "C", "A"] := by
  constructor
  · intro rg fuel deg queue result hq
    obtain ⟨m, rest, hs, hm, hmin⟩ := sort_head_min queue hq
    exact ⟨m, rest, hm, hmin, hs, by simp [popLoop, hs]⟩
  · decide

theorem c5_witness :
    (["C", "B"] : List Pkg) ≠ [] ∧
    (∃ m rest, m ∈ (["C", "B"] : List Pkg) ∧
      (∀ x ∈ (["C", "B"] : List Pkg), pkgLeP m x) ∧
      List.insertionSort pkgLeP ["C", "B"] = m :: rest ∧
      popLoop (fun _ => []) 1 (fun _ => 0) ["C", "B"] [] =
        popLoop (fun _ => []) 0
          (decAll (fun _ => (0 : Int)) ((fun _ => ([] : List Pkg)) m)).1
          (rest ++ (decAll (fun _ => (0 : Int)) ((fun _ => ([] : List Pkg)) m)).2)
          ([] ++ [m])) :=
  ⟨by decide,
   c5_lexicographic_tie_break.1 (fun _ => []) 0 (fun _ => 0) ["C", "B"] []
     (by decide)⟩


/-! ### Graph-invariant preservation through the DFS -/

theorem gpred_processList (Q : DependencyGraph → Prop)
    (hadd : ∀ g p d, Q g → Q (add_dependency g p d))
    (f : BuildState → Pkg → BuildState) (pkg : Pkg)
    (hf : ∀ st d, Q st.g → Q (f st d).g) :
    ∀ (deps : List Pkg) (st : BuildState),
      Q st.g → Q (processList f pkg st deps).g := by
  intro deps
  induction deps with
  | nil => intro st h; exact h
  | cons d rest ih =>
    intro st h
    exact ih _ (hf (addEdgeSt st pkg d) d (hadd st.g pkg d h))

theorem gpred_dfsAux (Q : DependencyGraph → Prop)
    (hadd : ∀ g p d, Q g → Q (add_dependency g p d))
    (hcyc : ∀ g c, Q g → Q { g with cycles := g.cycles ++ [c] })
    (P : Provider) :
    ∀ (fuel : Nat) (st : BuildState) (pkg : Pkg),
      Q st.g → Q (dfsAux P fuel st pkg).g := by
  intro fuel
  induction fuel with
  | zero => intro st pkg h; exact h
  | succ fuel ih =>
    intro st pkg h
    by_cases h1 : pkg ∈ st.stack
    · rw [dfs_stack_step P fuel st pkg h1]
      split_ifs with hc
      · exact h
      · exact hcyc st.g _ h
    · by_cases h2 : pkg ∈ st.visited
      · rw [dfs_visited_step P fuel st pkg h1 h2]
        exact h
      · rw [dfs_fresh_step P fuel st pkg h1 h2]
        cases hd : getDeps P pkg with
        | none => exact h
        | some deps =>
          exact gpred_processList Q hadd _ pkg (fun st d => ih st d) deps _ h

theorem srcTgt_add (g : DependencyGraph) (p d : Pkg) (h : SrcTgt g) :
    SrcTgt (add_dependency g p d) := by
  intro x hx
  rcases mem_insertPkg.mp hx with hx1 | rfl
  · rcases mem_insertPkg.mp hx1 with hx2 | rfl
    · rcases h x hx2 with hk | ht
      · exact Or.inl (mem_keysOf_assocAppend.mpr (Or.inl hk))
      · exact Or.inr (mem_targetsOf_assocAppend.mpr (Or.inl ht))
    · exact Or.inl (mem_keysOf_assocAppend.mpr (Or.inr rfl))
  · exact Or.inr (mem_targetsOf_assocAppend.mpr (Or.inr rfl))

theorem srcTgt_build (P : Provider) (root_package : Pkg) :
    SrcTgt (build_graph_dfs P root_package) := by
  apply gpred_dfsAux SrcTgt srcTgt_add (fun g c h => h) P
  intro x hx
  exact absurd hx (List.not_mem_nil x)

theorem srcTgt_addMany (ops : List (Pkg × Pkg)) : SrcTgt (addMany ops) := by
  have key : ∀ (l : List (Pkg × Pkg)) (g : DependencyGraph), SrcTgt g →
      SrcTgt (List.foldl (fun g pr => add_dependency g pr.1 pr.2) g l) := by
    intro l
    induction l with
    | nil => intro g h; exact h
    | cons op rest ih =>
      intro g h
      exact ih _ (srcTgt_add g op.1 op.2 h)
  exact key ops emptyGraph (fun x hx => absurd hx (List.not_mem_nil x))

theorem mem_canonicalIsolated {g : DependencyGraph} {root_package x : Pkg}
    (hS : SrcTgt g) (hx : x ∈ canonicalIsolated g root_package) :
    x = root_package := by
  unfold canonicalIsolated at hx
  obtain ⟨hmem, hcond⟩ := List.mem_filter.mp hx
  simp only [decide_eq_true_eq] at hcond
  rcases mem_insertPkg.mp hmem with hall | rfl
  · rcases hS x hall with hk | ht
    · exact absurd hk hcond.1
    · exact absurd ht hcond.2
  · rfl

theorem isolatedLines_eq_nil {g : DependencyGraph} {root_package : Pkg}
    {iso : List Pkg} (hS : SrcTgt g)
    (h : iso.Perm (canonicalIsolated g root_package)) :
    isolatedLines root_package iso = [] := by
  unfold isolatedLines
  have hfilter : iso.filter (fun n => n ≠ root_package) = [] := by
    rw [List.filter_eq_nil_iff]
    intro a ha
    have : a = root_package := mem_canonicalIsolated hS (h.mem_iff.mp ha)
    simp [this]
  rw [hfilter]
  rfl

/-- C10: after any sequence of `add_dependency` calls every recorded node is
the source or target of a stored edge, so the isolated-node set computed by
`to_dot` can contain at most the root itself and the isolated-node loop emits
no statement for a non-root node. -/
theorem c10_no_isolated_nonroot (ops : List (Pkg × Pkg)) (root_package : Pkg)
    (iso : List Pkg)
    (h : iso.Perm (canonicalIsolated (addMany ops) root_package)) :
    (∀ x ∈ (addMany ops).all_packages,
       x ∈ keysOf (addMany ops).graph ∨ x ∈ targetsOf (addMany ops).graph) ∧
    (∀ x ∈ iso, x = root_package) ∧
    isolatedLines root_package iso = [] := by
  refine ⟨srcTgt_addMany ops, ?_, isolatedLines_eq_nil (srcTgt_addMany ops) h⟩
  intro x hx
  exact mem_canonicalIsolated (srcTgt_addMany ops) (h.mem_iff.mp hx)

theorem c10_witness :
    (canonicalIsolated (addMany [("A", "B")]) "A").Perm
      (canonicalIsolated (addMany [("A", "B")]) "A") ∧
    ((∀ x ∈ (addMany [("A", "B")]).all_packages,
        x ∈ keysOf (addMany [("A", "B")]).graph ∨
        x ∈ targetsOf (addMany [("A", "B")]).graph) ∧
     (∀ x ∈ canonicalIsolated (addMany [("A", "B")]) "A", x = "A") ∧
     isolatedLines "A" (canonicalIsolated (addMany [("A", "B")]) "A") = []) :=
  ⟨by decide,
   c10_no_isolated_nonroot [("A", "B")] "A"
     (canonicalIsolated (addMany [("A", "B")]) "A") (by decide)⟩

/-- C9: serialization is deterministic: for any provider and root, the DOT
output of the built graph does not depend on the order in which the isolated
set happens to be enumerated (the only run-to-run nondeterminism of the
serializer), so two independent resolutions from identical provider answers
produce byte-identical text. -/
theorem c9_serialization_deterministic (P : Provider) (root_package : Pkg)
    (iso1 iso2 : List Pkg)
    (h1 : iso1.Perm
      (canonicalIsolated (build_graph_dfs P root_package) root_package))
    (h2 : iso2.Perm
      (canonicalIsolated (build_graph_dfs P root_package) root_package)) :
    to_dotWith (build_graph_dfs P root_package) root_package iso1 =
      to_dotWith (build_graph_dfs P root_package) root_package iso2 := by
  unfold to_dotWith
  rw [isolatedLines_eq_nil (srcTgt_build P root_package) h1,
      isolatedLines_eq_nil (srcTgt_build P root_package) h2]

theorem c9_witness :
    (canonicalIsolated (build_graph_dfs scenarioA "A") "A").Perm
      (canonicalIsolated (build_graph_dfs scenarioA "A") "A") ∧
    to_dotWith (build_graph_dfs scenarioA "A") "A"
        (canonicalIsolated (build_graph_dfs scenarioA "A") "A") =
      to_dotWith (build_graph_dfs scenarioA "A") "A"
        (canonicalIsolated (build_graph_dfs scenarioA "A") "A") :=
  ⟨by decide,
   c9_serialization_deterministic scenarioA "A"
     (canonicalIsolated (build_graph_dfs scenarioA "A") "A")
     (canonicalIsolated (build_graph_dfs scenarioA "A") "A")
     (by decide) (by decide)⟩


/-! ### Provider lookup failure is swallowed and equivalent to zero deps -/

theorem processList_congr (f1 f2 : BuildState → Pkg → BuildState) (pkg : Pkg)
    (h : ∀ st d, f1 st d = f2 st d) :
    ∀ (deps : List Pkg) (st : BuildState),
      processList f1 pkg st deps = processList f2 pkg st deps := by
  intro deps
  induction deps with
  | nil => intro st; rfl
  | cons d rest ih =>
    intro st
    show processList f1 pkg (f1 (addEdgeSt st pkg d) d) rest =
      processList f2 pkg (f2 (addEdgeSt st pkg d) d) rest
    rw [h (addEdgeSt st pkg d) d]
    exact ih _

theorem dfs_failure_eq_empty (P1 P2 : Provider) (X : Pkg)
    (hX1 : getDeps P1 X = none) (hX2 : getDeps P2 X = some [])
    (hothers : ∀ y, y ≠ X → getDeps P1 y = getDeps P2 y) :
    ∀ (fuel : Nat) (st : BuildState) (package : Pkg),
      dfsAux P1 fuel st package = dfsAux P2 fuel st package := by
  intro fuel
  induction fuel with
  | zero => intro st package; rfl
  | succ fuel ih =>
    intro st package
    by_cases h1 : package ∈ st.stack
    · rw [dfs_stack_step P1 fuel st package h1,
          dfs_stack_step P2 fuel st package h1]
    · by_cases h2 : package ∈ st.visited
      · rw [dfs_visited_step P1 fuel st package h1 h2,
            dfs_visited_step P2 fuel st package h1 h2]
      · rw [dfs_fresh_step P1 fuel st package h1 h2,
            dfs_fresh_step P2 fuel st package h1 h2]
        by_cases hpX : package = X
        · subst hpX
          rw [hX1, hX2]
          rfl
        · rw [hothers package hpX]
          cases hd : getDeps P2 package with
          | none => rfl
          | some deps =>
            have hc := processList_congr (dfsAux P1 fuel) (dfsAux P2 fuel)
              package (fun st d => ih st d) deps (markNode st package)
            simp only [hc]

theorem processList_keeps_deps (f : BuildState → Pkg → BuildState)
    (pkg X : Pkg) (hpkg : pkg ≠ X)
    (hf : ∀ st d, depsOf (f st d).g.graph X = depsOf st.g.graph X) :
    ∀ (deps : List Pkg) (st : BuildState),
      depsOf (processList f pkg st deps).g.graph X = depsOf st.g.graph X := by
  intro deps
  induction deps with
  | nil => intro st; rfl
  | cons d rest ih =>
    intro st
    show depsOf (processList f pkg (f (addEdgeSt st pkg d) d) rest).g.graph X =
      depsOf st.g.graph X
    rw [ih _, hf _ d]
    show depsOf (assocAppend st.g.graph pkg d) X = depsOf st.g.graph X
    rw [depsOf_assocAppend]
    exact if_neg (fun h : X = pkg => hpkg h.symm)

theorem dfs_failed_node_is_sink (P : Provider) (X : Pkg)
    (hX : getDeps P X = none) :
    ∀ (fuel : Nat) (st : BuildState) (package : Pkg),
      depsOf (dfsAux P fuel st package).g.graph X = depsOf st.g.graph X := by
  intro fuel
  induction fuel with
  | zero => intro st package; rfl
  | succ fuel ih =>
    intro st package
    by_cases h1 : package ∈ st.stack
    · rw [dfs_stack_step P fuel st package h1]
      split_ifs <;> rfl
    · by_cases h2 : package ∈ st.visited
      · rw [dfs_visited_step P fuel st package h1 h2]
      · rw [dfs_fresh_step P fuel st package h1 h2]
        by_cases hpX : package = X
        · subst hpX
          rw [hX]
          rfl
        · cases hd : getDeps P package with
          | none => rfl
          | some deps =>
            exact processList_keeps_deps (dfsAux P fuel) package X hpX
              (fun st d => ih st d) deps (markNode st package)

/-- C4: a provider lookup failure at a node `X` is swallowed: the whole build
behaves exactly as if `X` had reported zero dependencies (for every fuel,
state and start node), so the builder terminates normally and the failure is
never surfaced; `X` keeps zero outgoing edges in any graph built from such a
provider; and in scenario C the edge into `X` is present and the traversal
continued with `X`'s siblings. -/
theorem c4_lookup_failure_swallowed (P1 P2 : Provider) (X : Pkg)
    (hX1 : getDeps P1 X = none) (hX2 : getDeps P2 X = some [])
    (hothers : ∀ y, y ≠ X → getDeps P1 y = getDeps P2 y) :
    (∀ (fuel : Nat) (st : BuildState) (package : Pkg),
       dfsAux P1 fuel st package = dfsAux P2 fuel st package) ∧
    (∀ root_package : Pkg,
       depsOf (build_graph_dfs P1 root_package).graph X = []) ∧
    build_graph_dfs scenarioC "A" = build_graph_dfs scenarioCok "A" ∧
    depsOf (build_graph_dfs scenarioC "A").graph "A" = ["B", "X", "C"] ∧
    depsOf (build_graph_dfs scenarioC "A").graph "X" = [] ∧
    (build_graph_dfs scenarioC "A").cycles = [] := by
  refine ⟨dfs_failure_eq_empty P1 P2 X hX1 hX2 hothers, ?_, by decide,
    by decide, by decide, by decide⟩
  intro root_package
  unfold build_graph_dfs
  rw [dfs_failed_node_is_sink P1 X hX1]
  rfl

theorem c4_witness :
    getDeps scenarioC "X" = none ∧ getDeps scenarioCok "X" = some [] ∧
    (∀ y, y ≠ "X" → getDeps scenarioC y = getDeps scenarioCok y) ∧
    ((∀ (fuel : Nat) (st : BuildState) (package : Pkg),
        dfsAux scenarioC fuel st package = dfsAux scenarioCok fuel st package) ∧
     (∀ root_package : Pkg,
        depsOf (build_graph_dfs scenarioC root_package).graph "X" = []) ∧
     build_graph_dfs scenarioC "A" = build_graph_dfs scenarioCok "A" ∧
     depsOf (build_graph_dfs scenarioC "A").graph "A" = ["B", "X", "C"] ∧
     depsOf (build_graph_dfs scenarioC "A").graph "X" = [] ∧
     (build_graph_dfs scenarioC "A").cycles = []) := by
  refine ⟨by decide, by decide, ?_, ?_⟩
  · intro y hy
    by_cases hA : y = "A"
    · subst hA; decide
    · by_cases hB : y = "B"
      · subst hB; decide
      · by_cases hCc : y = "C"
        · subst hCc; decide
        · have e1 : getDeps scenarioC y = none := by
            simp [getDeps, scenarioC, lookupA, Ne.symm hA, Ne.symm hB,
              Ne.symm hCc]
          have e2 : getDeps scenarioCok y = none := by
            simp [getDeps, scenarioCok, lookupA, Ne.symm hA, Ne.symm hB,
              Ne.symm hCc, Ne.symm hy]
          rw [e1, e2]
  · exact c4_lookup_failure_swallowed scenarioC scenarioCok "X" (by decide)
      (by decide) (fun y hy => by
        by_cases hA : y = "A"
        · subst hA; decide
        · by_cases hB : y = "B"
          · subst hB; decide
          · by_cases hCc : y = "C"
            · subst hCc; decide
            · have e1 : getDeps scenarioC y = none := by
                simp [getDeps, scenarioC, lookupA, Ne.symm hA, Ne.symm hB,
                  Ne.symm hCc]
              have e2 : getDeps scenarioCok y = none := by
                simp [getDeps, scenarioCok, lookupA, Ne.symm hA, Ne.symm hB,
                  Ne.symm hCc, Ne.symm hy]
              rw [e1, e2])


/-! ### Transitive closure: `get_all_dependencies` computes reachability -/

theorem mem_targetsOf_of_mem_depsOf {G : List (Pkg × List Pkg)} {q d : Pkg}
    (h : d ∈ depsOf G q) : d ∈ targetsOf G := by
  induction G with
  | nil => simp [depsOf, lookupA] at h
  | cons kv rest ih =>
    obtain ⟨k, v⟩ := kv
    rw [depsOf_cons] at h
    by_cases hk : k = q
    · rw [if_pos hk] at h
      simp only [targetsOf, List.map_cons, List.flatten_cons, List.mem_append]
      exact Or.inl h
    · rw [if_neg hk] at h
      simp only [targetsOf, List.map_cons, List.flatten_cons, List.mem_append]
      exact Or.inr (ih h)

theorem unseenT_le_of_subset {G : List (Pkg × List Pkg)} {v w : List Pkg}
    (h : ∀ x ∈ v, x ∈ w) : unseenT G w ≤ unseenT G v := by
  apply Finset.card_le_card
  apply Finset.sdiff_subset_sdiff (le_refl _)
  intro x hx
  exact List.mem_toFinset.mpr (h x (List.mem_toFinset.mp hx))

theorem unseenT_lt {G : List (Pkg × List Pkg)} {v : List Pkg} {pkg : Pkg}
    (hmem : pkg ∈ targetsOf G) (hnot : pkg ∉ v) :
    unseenT G (v ++ [pkg]) < unseenT G v := by
  have hset : (v ++ [pkg]).toFinset = insert pkg v.toFinset := by
    rw [List.toFinset_append]
    simp only [List.toFinset_cons, List.toFinset_nil, insert_emptyc_eq]
    rw [Finset.union_comm, ← Finset.insert_eq]
  unfold unseenT
  rw [hset, Finset.sdiff_insert]
  apply Finset.card_erase_lt_of_mem
  rw [Finset.mem_sdiff]
  exact ⟨List.mem_toFinset.mpr hmem, fun hc => hnot (List.mem_toFinset.mp hc)⟩

theorem collectAux_mem_step {G : List (Pkg × List Pkg)} {fuel : Nat}
    {v : List Pkg} {pkg : Pkg} (h : pkg ∈ v) :
    collectAux G (fuel + 1) v pkg = v := by
  simp [collectAux, h]

theorem collectAux_fresh_step {G : List (Pkg × List Pkg)} {fuel : Nat}
    {v : List Pkg} {pkg : Pkg} (h : pkg ∉ v) :
    collectAux G (fuel + 1) v pkg =
      collectList (collectAux G fuel) (v ++ [pkg]) (depsOf G pkg) := by
  simp [collectAux, h]

theorem collectList_mono (f : List Pkg → Pkg → List Pkg)
    (hf : ∀ v d, ∃ t, f v d = v ++ t) :
    ∀ (ds : List Pkg) (v : List Pkg), ∃ t, collectList f v ds = v ++ t := by
  intro ds
  induction ds with
  | nil => intro v; exact ⟨[], by simp [collectList]⟩
  | cons d rest ih =>
    intro v
    obtain ⟨t1, ht1⟩ := hf v d
    obtain ⟨t2, ht2⟩ := ih (f v d)
    refine ⟨t1 ++ t2, ?_⟩
    show collectList f (f v d) rest = v ++ (t1 ++ t2)
    rw [ht2, ht1, List.append_assoc]

theorem collectAux_mono {G : List (Pkg × List Pkg)} :
    ∀ (fuel : Nat) (v : List Pkg) (pkg : Pkg),
      ∃ t, collectAux G fuel v pkg = v ++ t := by
  intro fuel
  induction fuel with
  | zero => intro v pkg; exact ⟨[], by simp [collectAux]⟩
  | succ fuel ih =>
    intro v pkg
    by_cases h : pkg ∈ v
    · exact ⟨[], by simp [collectAux_mem_step h]⟩
    · rw [collectAux_fresh_step h]
      obtain ⟨t, ht⟩ := collectList_mono _ (fun v d => ih v d) (depsOf G pkg)
        (v ++ [pkg])
      exact ⟨[pkg] ++ t, by rw [ht, List.append_assoc]⟩

theorem collectList_sound {G : List (Pkg × List Pkg)}
    (f : List Pkg → Pkg → List Pkg)
    (hf : ∀ v d x, x ∈ f v d → x ∈ v ∨ Reach G d x) :
    ∀ (ds : List Pkg) (v : List Pkg) (x : Pkg),
      x ∈ collectList f v ds → x ∈ v ∨ ∃ d ∈ ds, Reach G d x := by
  intro ds
  induction ds with
  | nil => intro v x hx; exact Or.inl hx
  | cons d rest ih =>
    intro v x hx
    rcases ih (f v d) x hx with hmem | ⟨d2, hd2, hr⟩
    · rcases hf v d x hmem with hv | hr
      · exact Or.inl hv
      · exact Or.inr ⟨d, List.mem_cons_self d rest, hr⟩
    · exact Or.inr ⟨d2, List.mem_cons_of_mem d hd2, hr⟩

theorem collectAux_sound {G : List (Pkg × List Pkg)} :
    ∀ (fuel : Nat) (v : List Pkg) (pkg : Pkg) (x : Pkg),
      x ∈ collectAux G fuel v pkg → x ∈ v ∨ Reach G pkg x := by
  intro fuel
  induction fuel with
  | zero => intro v pkg x hx; exact Or.inl hx
  | succ fuel ih =>
    intro v pkg x hx
    by_cases h : pkg ∈ v
    · rw [collectAux_mem_step h] at hx
      exact Or.inl hx
    · rw [collectAux_fresh_step h] at hx
      rcases collectList_sound _ (fun v d x => ih v d x) (depsOf G pkg)
          (v ++ [pkg]) x hx with hmem | ⟨d, hd, hr⟩
      · rcases List.mem_append.mp hmem with hv | hp
        · exact Or.inl hv
        · right
          rw [List.mem_singleton.mp hp]
          exact Relation.ReflTransGen.refl
      · exact Or.inr (Relation.ReflTransGen.head hd hr)

theorem collectList_closed {G : List (Pkg × List Pkg)} (fuel : Nat)
    (Pend : List Pkg)
    (IH : ∀ (v : List Pkg) (pkg : Pkg),
      unseenT G v < fuel → pkg ∈ targetsOf G →
      (∀ y ∈ v, ∀ d ∈ depsOf G y, d ∈ v ∨ d ∈ Pend) →
      (∀ y ∈ collectAux G fuel v pkg, ∀ d ∈ depsOf G y,
        d ∈ collectAux G fuel v pkg ∨ d ∈ Pend) ∧
      pkg ∈ collectAux G fuel v pkg) :
    ∀ (ds : List Pkg) (w : List Pkg),
      unseenT G w < fuel →
      (∀ d ∈ ds, d ∈ targetsOf G) →
      (∀ y ∈ w, ∀ d ∈ depsOf G y, d ∈ w ∨ d ∈ Pend) →
      (∀ y ∈ collectList (collectAux G fuel) w ds, ∀ d ∈ depsOf G y,
        d ∈ collectList (collectAux G fuel) w ds ∨ d ∈ Pend) ∧
      (∀ x ∈ w, x ∈ collectList (collectAux G fuel) w ds) ∧
      (∀ d ∈ ds, d ∈ collectList (collectAux G fuel) w ds) := by
  intro ds
  induction ds with
  | nil =>
    intro w _ _ hcl
    exact ⟨hcl, fun x hx => hx, fun d hd => absurd hd (List.not_mem_nil d)⟩
  | cons d rest ih =>
    intro w hfuel hds hcl
    have hd_tgt : d ∈ targetsOf G := hds d (List.mem_cons_self d rest)
    obtain ⟨hcl1, hd1⟩ := IH w d hfuel hd_tgt hcl
    have hw1 : ∀ x ∈ w, x ∈ collectAux G fuel w d := by
      obtain ⟨t, ht⟩ := collectAux_mono fuel w d
      intro x hx
      rw [ht]
      exact List.mem_append.mpr (Or.inl hx)
    have hfuel1 : unseenT G (collectAux G fuel w d) < fuel :=
      lt_of_le_of_lt (unseenT_le_of_subset hw1) hfuel
    have hds1 : ∀ e ∈ rest, e ∈ targetsOf G :=
      fun e he => hds e (List.mem_cons_of_mem d he)
    obtain ⟨hcl2, hsub2, hrest2⟩ := ih (collectAux G fuel w d) hfuel1 hds1 hcl1
    refine ⟨hcl2, ?_, ?_⟩
    · intro x hx
      exact hsub2 x (hw1 x hx)
    · intro e he
      rcases List.mem_cons.mp he with rfl | hrest
      · exact hsub2 e hd1
      · exact hrest2 e hrest

theorem collectAux_closed {G : List (Pkg × List Pkg)} :
    ∀ (fuel : Nat) (v : List Pkg) (pkg : Pkg) (Pend : List Pkg),
      unseenT G v < fuel → pkg ∈ targetsOf G →
      (∀ y ∈ v, ∀ d ∈ depsOf G y, d ∈ v ∨ d ∈ Pend) →
      (∀ y ∈ collectAux G fuel v pkg, ∀ d ∈ depsOf G y,
        d ∈ collectAux G fuel v pkg ∨ d ∈ Pend) ∧
      pkg ∈ collectAux G fuel v pkg := by
  intro fuel
  induction fuel with
  | zero =>
    intro v pkg Pend hfuel
    exact absurd hfuel (Nat.not_lt_zero _)
  | succ fuel ih =>
    intro v pkg Pend hfuel htgt hcl
    by_cases h : pkg ∈ v
    · rw [collectAux_mem_step h]
      exact ⟨hcl, h⟩
    · rw [collectAux_fresh_step h]
      have hfuel1 : unseenT G (v ++ [pkg]) < fuel := by
        have h1 : unseenT G (v ++ [pkg]) < unseenT G v := unseenT_lt htgt h
        omega
      have hcl1 : ∀ y ∈ v ++ [pkg], ∀ d ∈ depsOf G y,
          d ∈ v ++ [pkg] ∨ d ∈ Pend ++ depsOf G pkg := by
        intro y hy d hd
        rcases List.mem_append.mp hy with hv | hp
        · rcases hcl y hv d hd with h1 | h1
          · exact Or.inl (List.mem_append.mpr (Or.inl h1))
          · exact Or.inr (List.mem_append.mpr (Or.inl h1))
        · rw [List.mem_singleton.mp hp] at hd
          exact Or.inr (List.mem_append.mpr (Or.inr hd))
      have hds : ∀ d ∈ depsOf G pkg, d ∈ targetsOf G :=
        fun d hd => mem_targetsOf_of_mem_depsOf hd
      obtain ⟨hcl2, hsub2, hdeps2⟩ :=
        collectList_closed fuel (Pend ++ depsOf G pkg)
          (fun v2 pkg2 a b c => ih v2 pkg2 (Pend ++ depsOf G pkg) a b c)
          (depsOf G pkg) (v ++ [pkg]) hfuel1 hds hcl1
      constructor
      · intro y hy d hd
        rcases hcl2 y hy d hd with h1 | h1
        · exact Or.inl h1
        · rcases List.mem_append.mp h1 with h2 | h2
          · exact Or.inr h2
          · exact Or.inl (hdeps2 d h2)
      · exact hsub2 pkg (List.mem_append.mpr (Or.inr (List.mem_singleton.mpr rfl)))


/-- C6: for every graph and package, `get_all_dependencies` returns exactly
the set of packages transitively reachable from the package's direct
dependencies (the package itself included exactly when it is reachable from
one of its own dependencies, i.e. lies on a cycle back to itself); the
computation is total even on cyclic graphs. -/
theorem c6_transitive_closure (g : DependencyGraph) (package x : Pkg) :
    x ∈ get_all_dependencies g package ↔
      ∃ d ∈ depsOf g.graph package, Reach g.graph d x := by
  unfold get_all_dependencies
  constructor
  · intro hx
    rcases collectList_sound _
        (fun v d x => collectAux_sound (collectFuel g.graph) v d x)
        (depsOf g.graph package) [] x hx with hnil | h
    · exact absurd hnil (List.not_mem_nil x)
    · exact h
  · rintro ⟨d, hd, hr⟩
    have hfuel : unseenT g.graph [] < collectFuel g.graph := by
      unfold unseenT collectFuel
      simp [List.card_toFinset]
    obtain ⟨hcl, _, hdeps⟩ := collectList_closed (G := g.graph)
      (collectFuel g.graph) []
      (fun v pkg a b c => collectAux_closed (collectFuel g.graph) v pkg [] a b c)
      (depsOf g.graph package) [] hfuel
      (fun e he => mem_targetsOf_of_mem_depsOf he)
      (fun y hy => absurd hy (List.not_mem_nil y))
    have hstart : d ∈ collectList (collectAux g.graph (collectFuel g.graph))
        [] (depsOf g.graph package) := hdeps d hd
    induction hr with
    | refl => exact hstart
    | tail hr1 hstep ih =>
      rcases hcl _ ih _ hstep with h1 | h1
      · exact h1
      · exact absurd h1 (List.not_mem_nil _)


/-! ### Toward Kahn: the DFS produces a topological finishing order -/

theorem lookupA_mem {α : Type} {P : List (Pkg × α)} {x : Pkg} {r : α}
    (h : lookupA P x = some r) : (x, r) ∈ P := by
  induction P with
  | nil => simp [lookupA] at h
  | cons kv rest ih =>
    obtain ⟨k, v⟩ := kv
    by_cases hk : k = x
    · subst hk
      rw [lookupA, if_pos rfl] at h
      rw [Option.some_inj.mp h]
      exact List.mem_cons_self _ _
    · rw [lookupA, if_neg hk] at h
      exact List.mem_cons_of_mem _ (ih h)

theorem goodU_univList (P : Provider) (root_package : Pkg) :
    GoodU P (univList P root_package).toFinset := by
  intro x l hx d hd
  rw [List.mem_toFinset]
  unfold univList
  rw [List.mem_dedup]
  apply List.mem_cons_of_mem
  unfold getDeps at hx
  cases hlk : lookupA P x with
  | none => rw [hlk] at hx; exact absurd hx (by simp)
  | some r =>
    rw [hlk] at hx
    have hmem : (x, r) ∈ P := lookupA_mem hlk
    rcases r with - | l2
    · exact absurd hx (by simp)
    · have : l2 = l := by simpa using hx
      subst this
      rw [List.mem_flatten]
      refine ⟨l2, ?_, hd⟩
      exact List.mem_map.mpr ⟨(x, some l2), hmem, rfl⟩

theorem root_mem_univList (P : Provider) (root_package : Pkg) :
    root_package ∈ (univList P root_package).toFinset := by
  rw [List.mem_toFinset]
  unfold univList
  rw [List.mem_dedup]
  exact List.mem_cons_self _ _

theorem toFinset_append_singleton (v : List Pkg) (pkg : Pkg) :
    (v ++ [pkg]).toFinset = insert pkg v.toFinset := by
  rw [List.toFinset_append]
  simp only [List.toFinset_cons, List.toFinset_nil, insert_emptyc_eq]
  rw [Finset.union_comm, ← Finset.insert_eq]

theorem unseenU_le_of_subset {U : Finset Pkg} {v w : List Pkg}
    (h : ∀ x ∈ v, x ∈ w) : unseenU U w ≤ unseenU U v := by
  apply Finset.card_le_card
  apply Finset.sdiff_subset_sdiff (le_refl _)
  intro x hx
  exact List.mem_toFinset.mpr (h x (List.mem_toFinset.mp hx))

theorem unseenU_lt_of_fresh {U : Finset Pkg} {v : List Pkg} {pkg : Pkg}
    (hU : pkg ∈ U) (hv : pkg ∉ v) :
    unseenU U (v ++ [pkg]) < unseenU U v := by
  unfold unseenU
  rw [toFinset_append_singleton, Finset.sdiff_insert]
  apply Finset.card_erase_lt_of_mem
  rw [Finset.mem_sdiff]
  exact ⟨hU, fun hc => hv (List.mem_toFinset.mp hc)⟩

theorem processList_fixes_deps2 (f : BuildState → Pkg → BuildState)
    (pkg q : Pkg) (hne : pkg ≠ q)
    (hmono : ∀ st d, ∃ t, (f st d).visited = st.visited ++ t)
    (hf : ∀ st d, q ∈ st.visited →
      depsOf (f st d).g.graph q = depsOf st.g.graph q) :
    ∀ (deps : List Pkg) (st : BuildState), q ∈ st.visited →
      depsOf (processList f pkg st deps).g.graph q = depsOf st.g.graph q := by
  intro deps
  induction deps with
  | nil => intro st _; rfl
  | cons d rest ih =>
    intro st hq
    have hqa : q ∈ (addEdgeSt st pkg d).visited := hq
    have hqb : q ∈ (f (addEdgeSt st pkg d) d).visited := by
      obtain ⟨t, ht⟩ := hmono (addEdgeSt st pkg d) d
      rw [ht]
      exact List.mem_append.mpr (Or.inl hqa)
    show depsOf (processList f pkg (f (addEdgeSt st pkg d) d) rest).g.graph q =
      depsOf st.g.graph q
    rw [ih _ hqb, hf _ d hqa]
    show depsOf (assocAppend st.g.graph pkg d) q = depsOf st.g.graph q
    rw [depsOf_assocAppend]
    exact if_neg (fun h : q = pkg => hne h.symm)

theorem dfs_fixes_visited_deps (P : Provider) :
    ∀ (fuel : Nat) (st : BuildState) (x q : Pkg), q ∈ st.visited →
      depsOf (dfsAux P fuel st x).g.graph q = depsOf st.g.graph q := by
  intro fuel
  induction fuel with
  | zero => intro st x q _; rfl
  | succ fuel ih =>
    intro st x q hq
    by_cases h1 : x ∈ st.stack
    · rw [dfs_stack_step P fuel st x h1]
      split_ifs <;> rfl
    · by_cases h2 : x ∈ st.visited
      · rw [dfs_visited_step P fuel st x h1 h2]
      · rw [dfs_fresh_step P fuel st x h1 h2]
        cases hd : getDeps P x with
        | none => rfl
        | some deps =>
          have hne : x ≠ q := fun hh => h2 (hh ▸ hq)
          have hqm : q ∈ (markNode st x).visited :=
            List.mem_append.mpr (Or.inl hq)
          exact processList_fixes_deps2 (dfsAux P fuel) x q hne
            (fun st d => (ext_dfsAux P fuel st d).2.2.1)
            (fun st d hq2 => ih st d q hq2) deps (markNode st x) hqm


theorem topoInv_addEdge {st : BuildState} {L : List Pkg} {pkg d : Pkg}
    (hstk : pkg ∈ st.stack) (hvis : pkg ∈ st.visited) (h : TopoInv st L) :
    TopoInv (addEdgeSt st pkg d) L := by
  obtain ⟨h1, h2, h3, h4⟩ := h
  refine ⟨h1, fun x => h2 x, ?_, ?_⟩
  · intro p e hpe hpL
    by_cases hp : p = pkg
    · subst hp
      exact absurd hstk ((h2 p).mp hpL).2
    · have he : edgeIn st.g.graph p e := by
        unfold edgeIn at hpe ⊢
        have : depsOf (addEdgeSt st pkg d).g.graph p =
            depsOf st.g.graph p := by
          show depsOf (assocAppend st.g.graph pkg d) p = depsOf st.g.graph p
          rw [depsOf_assocAppend]
          exact if_neg hp
        rw [this] at hpe
        exact hpe
      exact h3 p e he hpL
  · intro p e hpe
    by_cases hp : p = pkg
    · subst hp; exact hvis
    · apply h4 p e
      unfold edgeIn at hpe ⊢
      have : depsOf (addEdgeSt st pkg d).g.graph p = depsOf st.g.graph p := by
        show depsOf (assocAppend st.g.graph pkg d) p = depsOf st.g.graph p
        rw [depsOf_assocAppend]
        exact if_neg hp
      rw [this] at hpe
      exact hpe

theorem topoInv_mark {st : BuildState} {L : List Pkg} {pkg : Pkg}
    (h2v : pkg ∉ st.visited) (h : TopoInv st L) :
    TopoInv (markNode st pkg) L := by
  obtain ⟨h1, h2, h3, h4⟩ := h
  refine ⟨h1, ?_, h3, ?_⟩
  · intro x
    show x ∈ L ↔ x ∈ st.visited ++ [pkg] ∧ x ∉ pkg :: st.stack
    constructor
    · intro hx
      obtain ⟨hv, hs⟩ := (h2 x).mp hx
      refine ⟨List.mem_append.mpr (Or.inl hv), ?_⟩
      intro hc
      rcases List.mem_cons.mp hc with rfl | hc2
      · exact h2v hv
      · exact hs hc2
    · rintro ⟨hv, hs⟩
      have hxp : x ≠ pkg := fun hh => hs (hh ▸ List.mem_cons_self _ _)
      rcases List.mem_append.mp hv with hv2 | hv2
      · exact (h2 x).mpr ⟨hv2, fun hc =>
          hs (List.mem_cons_of_mem _ hc)⟩
      · exact absurd (List.mem_singleton.mp hv2) hxp
  · intro p e hpe
    exact List.mem_append.mpr (Or.inl (h4 p e hpe))

theorem topoInv_finish {X : BuildState} {pkg : Pkg} {S0 : List Pkg}
    {L2 : List Pkg}
    (hstack : X.stack = pkg :: S0) (hnin : pkg ∉ S0)
    (hvisX : pkg ∈ X.visited)
    (hTX : TopoInv X L2)
    (hedges : ∀ e, edgeIn X.g.graph pkg e → e ∈ L2) :
    TopoInv (unmarkNode X pkg) (L2 ++ [pkg]) := by
  obtain ⟨h1, h2, h3, h4⟩ := hTX
  have hpkgL : pkg ∉ L2 := by
    intro hc
    exact ((h2 pkg).mp hc).2 (hstack ▸ List.mem_cons_self _ _)
  have hstack2 : (unmarkNode X pkg).stack = S0 := by
    show X.stack.erase pkg = S0
    rw [hstack]
    exact List.erase_cons_head pkg S0
  refine ⟨?_, ?_, ?_, ?_⟩
  · simp [List.nodup_append, h1, hpkgL]
  · intro x
    rw [List.mem_append, List.mem_singleton]
    show _ ↔ x ∈ X.visited ∧ x ∉ (unmarkNode X pkg).stack
    rw [hstack2]
    constructor
    · rintro (hx | rfl)
      · obtain ⟨hv, hs⟩ := (h2 x).mp hx
        exact ⟨hv, fun hc => hs (hstack ▸ List.mem_cons_of_mem _ hc)⟩
      · exact ⟨hvisX, hnin⟩
    · rintro ⟨hv, hs⟩
      by_cases hxp : x = pkg
      · exact Or.inr hxp
      · left
        apply (h2 x).mpr
        refine ⟨hv, ?_⟩
        rw [hstack]
        intro hc
        rcases List.mem_cons.mp hc with hh | hh
        · exact hxp hh
        · exact hs hh
  · intro p e hpe hpL
    rcases List.mem_append.mp hpL with hp | hp
    · obtain ⟨he, hidx⟩ := h3 p e hpe hp
      refine ⟨List.mem_append.mpr (Or.inl he), ?_⟩
      rw [List.indexOf_append_of_mem he, List.indexOf_append_of_mem hp]
      exact hidx
    · rw [List.mem_singleton.mp hp] at hpe ⊢
      have he : e ∈ L2 := hedges e hpe
      refine ⟨List.mem_append.mpr (Or.inl he), ?_⟩
      rw [List.indexOf_append_of_mem he,
          List.indexOf_append_of_not_mem hpkgL]
      have : e ∈ L2 := he
      calc List.indexOf e L2 < L2.length := List.indexOf_lt_length.mpr he
        _ ≤ L2.length + List.indexOf pkg [pkg] := Nat.le_add_right _ _
  · intro p e hpe
    exact h4 p e hpe


theorem processList_topo (P : Provider) (U : Finset Pkg) (fuel : Nat)
    (IH : ∀ (st : BuildState) (pkg : Pkg) (L : List Pkg),
      pkg ∈ U → unseenU U st.visited < fuel → TopoInv st L →
      (dfsAux P fuel st pkg).g.cycles = [] →
      ∃ M, TopoInv (dfsAux P fuel st pkg) (L ++ M) ∧ pkg ∈ L ++ M) :
    ∀ (deps : List Pkg) (st : BuildState) (pkg : Pkg) (L : List Pkg),
      (∀ d ∈ deps, d ∈ U) →
      unseenU U st.visited < fuel →
      pkg ∈ st.stack → pkg ∈ st.visited →
      TopoInv st L →
      (processList (dfsAux P fuel) pkg st deps).g.cycles = [] →
      ∃ M, TopoInv (processList (dfsAux P fuel) pkg st deps) (L ++ M) ∧
        (∀ d ∈ deps, d ∈ L ++ M) ∧
        (∀ e, edgeIn (processList (dfsAux P fuel) pkg st deps).g.graph pkg e →
          edgeIn st.g.graph pkg e ∨ e ∈ deps) := by
  intro deps
  induction deps with
  | nil =>
    intro st pkg L _ _ _ _ hT _
    refine ⟨[], by simpa using hT, ?_, fun e he => Or.inl he⟩
    intro d hd
    exact absurd hd (List.not_mem_nil d)
  | cons d rest ih =>
    intro st pkg L hdep hcount hstk hvis hT hcyc
    have hfinal_eq : processList (dfsAux P fuel) pkg st (d :: rest) =
        processList (dfsAux P fuel) pkg
          (dfsAux P fuel (addEdgeSt st pkg d) d) rest := rfl
    have hTa : TopoInv (addEdgeSt st pkg d) L := topoInv_addEdge hstk hvis hT
    have hcount_a : unseenU U (addEdgeSt st pkg d).visited < fuel := hcount
    -- the recursive dfs call leaves cycles empty
    obtain ⟨-, -, -, ⟨tcyc, htcyc⟩, -, -⟩ :=
      ext_processList (dfsAux P fuel) pkg (fun s x => ext_dfsAux P fuel s x)
        rest (dfsAux P fuel (addEdgeSt st pkg d) d)
    have hcycb : (dfsAux P fuel (addEdgeSt st pkg d) d).g.cycles = [] := by
      rw [hfinal_eq] at hcyc
      rw [hcyc] at htcyc
      exact (List.append_eq_nil.mp htcyc.symm).1
    obtain ⟨M1, hTb, hdM⟩ := IH (addEdgeSt st pkg d) d L
      (hdep d (List.mem_cons_self d rest)) hcount_a hTa hcycb
    obtain ⟨hsb, -, ⟨tv, htv⟩, -, -, -⟩ :=
      ext_dfsAux P fuel (addEdgeSt st pkg d) d
    have hstk_b : pkg ∈ (dfsAux P fuel (addEdgeSt st pkg d) d).stack := by
      rw [hsb]; exact hstk
    have hvis_b : pkg ∈ (dfsAux P fuel (addEdgeSt st pkg d) d).visited := by
      rw [htv]; exact List.mem_append.mpr (Or.inl hvis)
    have hcount_b :
        unseenU U (dfsAux P fuel (addEdgeSt st pkg d) d).visited < fuel := by
      apply lt_of_le_of_lt _ hcount
      apply unseenU_le_of_subset
      intro x hx
      rw [htv]
      exact List.mem_append.mpr (Or.inl hx)
    have hcyc_rest :
        (processList (dfsAux P fuel) pkg
          (dfsAux P fuel (addEdgeSt st pkg d) d) rest).g.cycles = [] := by
      rw [← hfinal_eq]; exact hcyc
    obtain ⟨M2, hTfin, hrest_mem, hedge⟩ := ih
      (dfsAux P fuel (addEdgeSt st pkg d) d) pkg (L ++ M1)
      (fun e he => hdep e (List.mem_cons_of_mem d he))
      hcount_b hstk_b hvis_b hTb hcyc_rest
    refine ⟨M1 ++ M2, ?_, ?_, ?_⟩
    · rw [← List.append_assoc]
      rw [hfinal_eq]
      exact hTfin
    · intro e he
      rcases List.mem_cons.mp he with rfl | hrest
      · rw [← List.append_assoc]
        exact List.mem_append.mpr (Or.inl hdM)
      · rw [← List.append_assoc]
        exact hrest_mem e hrest
    · intro e he
      rw [hfinal_eq] at he
      rcases hedge e he with h1 | h1
      · have hfix : depsOf (dfsAux P fuel (addEdgeSt st pkg d) d).g.graph pkg =
            depsOf (addEdgeSt st pkg d).g.graph pkg :=
          dfs_fixes_visited_deps P fuel (addEdgeSt st pkg d) d pkg hvis
        unfold edgeIn at h1
        rw [hfix] at h1
        have : depsOf (addEdgeSt st pkg d).g.graph pkg =
            depsOf st.g.graph pkg ++ [d] := by
          show depsOf (assocAppend st.g.graph pkg d) pkg =
            depsOf st.g.graph pkg ++ [d]
          rw [depsOf_assocAppend]
          exact if_pos rfl
        rw [this] at h1
        rcases List.mem_append.mp h1 with h2 | h2
        · exact Or.inl h2
        · exact Or.inr (List.mem_singleton.mp h2 ▸ List.mem_cons_self d rest)
      · exact Or.inr (List.mem_cons_of_mem d h1)

theorem dfs_topo (P : Provider) (U : Finset Pkg) (hU : GoodU P U) :
    ∀ (fuel : Nat) (st : BuildState) (pkg : Pkg) (L : List Pkg),
      pkg ∈ U → unseenU U st.visited < fuel → TopoInv st L →
      (dfsAux P fuel st pkg).g.cycles = [] →
      ∃ M, TopoInv (dfsAux P fuel st pkg) (L ++ M) ∧ pkg ∈ L ++ M := by
  intro fuel
  induction fuel with
  | zero =>
    intro st pkg L _ hcount
    exact absurd hcount (Nat.not_lt_zero _)
  | succ fuel ih =>
    intro st pkg L hpkgU hcount hT hcyc
    by_cases h1 : pkg ∈ st.stack
    · exfalso
      have hst0 : st.g.cycles = [] := by
        obtain ⟨-, -, -, ⟨tc, htc⟩, -, -⟩ := ext_dfsAux P (fuel + 1) st pkg
        rw [hcyc] at htc
        exact (List.append_eq_nil.mp htc.symm).1
      rw [dfs_stack_step P fuel st pkg h1] at hcyc
      rw [if_neg (by rw [hst0]; exact List.not_mem_nil _)] at hcyc
      simp [hst0] at hcyc
    · by_cases h2 : pkg ∈ st.visited
      · rw [dfs_visited_step P fuel st pkg h1 h2]
        exact ⟨[], by simpa using hT, by
          rw [List.append_nil]
          exact (hT.2.1 pkg).mpr ⟨h2, h1⟩⟩
      · rw [dfs_fresh_step P fuel st pkg h1 h2] at hcyc ⊢
        have hTm : TopoInv (markNode st pkg) L := topoInv_mark h2 hT
        have hcm : unseenU U (markNode st pkg).visited < fuel := by
          have hlt : unseenU U (st.visited ++ [pkg]) < unseenU U st.visited :=
            unseenU_lt_of_fresh hpkgU h2
          have : unseenU U st.visited < fuel + 1 := hcount
          show unseenU U (st.visited ++ [pkg]) < fuel
          omega
        cases hd : getDeps P pkg with
        | none =>
          refine ⟨[pkg], ?_, List.mem_append.mpr (Or.inr (List.mem_singleton.mpr rfl))⟩
          apply topoInv_finish rfl h1
            (List.mem_append.mpr (Or.inr (List.mem_singleton.mpr rfl))) hTm
          intro e hpe
          exact absurd (hT.2.2.2 pkg e hpe) h2
        | some deps =>
          rw [hd] at hcyc
          have hdeps_U : ∀ e ∈ deps, e ∈ U := hU pkg deps hd
          have hstk_m : pkg ∈ (markNode st pkg).stack :=
            List.mem_cons_self _ _
          have hvis_m : pkg ∈ (markNode st pkg).visited :=
            List.mem_append.mpr (Or.inr (List.mem_singleton.mpr rfl))
          obtain ⟨M, hTX, hdepsM, hedgeX⟩ := processList_topo P U fuel ih
            deps (markNode st pkg) pkg L hdeps_U hcm hstk_m hvis_m hTm hcyc
          refine ⟨M ++ [pkg], ?_, by
            rw [← List.append_assoc]
            exact List.mem_append.mpr (Or.inr (List.mem_singleton.mpr rfl))⟩
          rw [← List.append_assoc]
          obtain ⟨hsX, -, ⟨tvX, htvX⟩, -, -, -⟩ :=
            ext_processList (dfsAux P fuel) pkg
              (fun s x => ext_dfsAux P fuel s x) deps (markNode st pkg)
          apply topoInv_finish hsX h1 _ hTX
          · intro e hpe
            rcases hedgeX e hpe with hold | hnew
            · exact absurd (hT.2.2.2 pkg e hold) h2
            · exact hdepsM e hnew
          · rw [htvX]
            exact List.mem_append.mpr
              (Or.inl (List.mem_append.mpr (Or.inr (List.mem_singleton.mpr rfl))))


/-! ### Kahn: reverse graph, in-degrees and the pop loop -/

theorem mem_keysOf_of_depsOf {G : List (Pkg × List Pkg)} {p d : Pkg}
    (h : d ∈ depsOf G p) : p ∈ keysOf G := by
  induction G with
  | nil => simp [depsOf, lookupA] at h
  | cons kv rest ih =>
    obtain ⟨k, v⟩ := kv
    rw [depsOf_cons] at h
    by_cases hk : k = p
    · subst hk
      exact List.mem_cons_self _ _
    · rw [if_neg hk] at h
      exact List.mem_cons_of_mem _ (ih h)

theorem depsOf_eq_nil_of_not_key {G : List (Pkg × List Pkg)} {p : Pkg}
    (h : p ∉ keysOf G) : depsOf G p = [] := by
  cases hd : depsOf G p with
  | nil => rfl
  | cons d rest =>
    exact absurd (mem_keysOf_of_depsOf (hd ▸ List.mem_cons_self d rest)) h

theorem insertPkg_nodup {l : List Pkg} (h : l.Nodup) (x : Pkg) :
    (insertPkg l x).Nodup := by
  unfold insertPkg
  split_ifs with hx
  · exact h
  · simp [List.nodup_append, h, hx]

theorem keysOf_assocAppend_eq (G : List (Pkg × List Pkg)) (p d : Pkg) :
    keysOf (assocAppend G p d) =
      if p ∈ keysOf G then keysOf G else keysOf G ++ [p] := by
  induction G with
  | nil => simp [assocAppend, keysOf]
  | cons kv rest ih =>
    obtain ⟨k, v⟩ := kv
    by_cases hk : k = p
    · subst hk
      rw [assocAppend_cons_eq rfl,
          if_pos (show k ∈ keysOf ((k, v) :: rest) from
            List.mem_cons_self _ _)]
      rfl
    · rw [assocAppend_cons_ne hk]
      have hcons : keysOf ((k, v) :: assocAppend rest p d) =
          k :: keysOf (assocAppend rest p d) := rfl
      rw [hcons, ih]
      by_cases hp : p ∈ keysOf rest
      · rw [if_pos hp, if_pos (show p ∈ keysOf ((k, v) :: rest) from
          List.mem_cons_of_mem _ hp)]
        rfl
      · have hnp : p ∉ keysOf ((k, v) :: rest) := by
          intro hc
          rcases List.mem_cons.mp hc with hh | hh
          · exact hk hh.symm
          · exact hp hh
        rw [if_neg hp, if_neg hnp]
        rfl

theorem filter_notmem_nil (l : List Pkg) :
    l.filter (fun z => z ∉ ([] : List Pkg)) = l := by
  induction l with
  | nil => rfl
  | cons a as ih => simp [List.filter_cons, ih]

theorem length_filter_notmem_split (l : List Pkg) (R : List Pkg) (m : Pkg)
    (hm : m ∉ R) :
    (l.filter (fun z => z ∉ R)).length =
      (l.filter (fun z => z ∉ R ++ [m])).length + l.count m := by
  induction l with
  | nil => rfl
  | cons a as ih =>
    rw [List.filter_cons, List.filter_cons]
    by_cases ham : a = m
    · subst ham
      rw [if_pos (by simp [hm]), if_neg (by simp)]
      simp only [List.length_cons, List.count_cons_self]
      rw [ih]
      omega
    · by_cases haR : a ∈ R
      · rw [if_neg (by simp [haR]), if_neg (by simp [haR])]
        rw [ih]
        simp [List.count_cons, ham]
      · rw [if_pos (by simp [haR]), if_pos (by simp [haR]; exact ham)]
        simp only [List.length_cons]
        rw [ih]
        have : List.count m (a :: as) = List.count m as := by
          simp [List.count_cons, ham]
        rw [this]
        omega


theorem revStep_fold_deg (k : Pkg) :
    ∀ (v : List Pkg) (acc : (Pkg → List Pkg) × (Pkg → Int)) (q : Pkg),
      (v.foldl (revStep k) acc).2 q =
        acc.2 q + (if q = k then (v.length : Int) else 0) := by
  intro v
  induction v with
  | nil => intro acc q; simp
  | cons dep rest ih =>
    intro acc q
    rw [List.foldl_cons, ih]
    show (updateF acc.2 k (acc.2 k + 1)) q + _ = _
    by_cases hq : q = k
    · subst hq
      simp only [updateF, if_pos rfl, List.length_cons]
      push_cast
      ring
    · simp [updateF, hq]

theorem revStep_fold_count (k : Pkg) :
    ∀ (v : List Pkg) (acc : (Pkg → List Pkg) × (Pkg → Int)) (e p : Pkg),
      List.count p ((v.foldl (revStep k) acc).1 e) =
        List.count p (acc.1 e) + (if p = k then List.count e v else 0) := by
  intro v
  induction v with
  | nil => intro acc e p; simp
  | cons dep rest ih =>
    intro acc e p
    rw [List.foldl_cons, ih]
    show List.count p ((updateF acc.1 dep (acc.1 dep ++ [k])) e) + _ = _
    by_cases hed : e = dep
    · subst hed
      have hupd : (updateF acc.1 e (acc.1 e ++ [k])) e = acc.1 e ++ [k] := by
        simp [updateF]
      rw [hupd, List.count_append]
      have hcnt : List.count e (e :: rest) = List.count e rest + 1 := by
        simp [List.count_cons]
      rw [hcnt]
      by_cases hpk : p = k
      · subst hpk
        simp [List.count_singleton]
        omega
      · have : List.count p [k] = 0 := by
          simp [List.count_singleton, hpk]
        rw [this]
        simp [hpk]
    · have hupd : (updateF acc.1 dep (acc.1 dep ++ [k])) e = acc.1 e := by
        simp [updateF, hed]
      rw [hupd]
      have hcnt : List.count e (dep :: rest) = List.count e rest := by
        simp [List.count_cons, fun h : e = dep => hed h]
      rw [hcnt]

theorem buildRev_fold_deg :
    ∀ (items : List (Pkg × List Pkg))
      (acc : (Pkg → List Pkg) × (Pkg → Int)) (q : Pkg),
      (keysOf items).Nodup →
      (items.foldl (fun acc pr => pr.2.foldl (revStep pr.1) acc) acc).2 q =
        acc.2 q + ((depsOf items q).length : Int) := by
  intro items
  induction items with
  | nil =>
    intro acc q _
    simp [depsOf, lookupA]
  | cons kv rest ih =>
    obtain ⟨k, v⟩ := kv
    intro acc q hnd
    have hnd2 := List.nodup_cons.mp (show (k :: keysOf rest).Nodup from hnd)
    rw [List.foldl_cons, ih _ _ hnd2.2, revStep_fold_deg, depsOf_cons]
    by_cases hk : k = q
    · subst hk
      rw [if_pos rfl, if_pos rfl,
          depsOf_eq_nil_of_not_key hnd2.1]
      simp
    · rw [if_neg hk, if_neg (fun h : q = k => hk h.symm)]
      ring

theorem buildRev_fold_count :
    ∀ (items : List (Pkg × List Pkg))
      (acc : (Pkg → List Pkg) × (Pkg → Int)) (e p : Pkg),
      (keysOf items).Nodup →
      List.count p
          ((items.foldl (fun acc pr => pr.2.foldl (revStep pr.1) acc) acc).1 e)
        = List.count p (acc.1 e) + List.count e (depsOf items p) := by
  intro items
  induction items with
  | nil =>
    intro acc e p _
    simp [depsOf, lookupA]
  | cons kv rest ih =>
    obtain ⟨k, v⟩ := kv
    intro acc e p hnd
    have hnd2 := List.nodup_cons.mp (show (k :: keysOf rest).Nodup from hnd)
    rw [List.foldl_cons, ih _ _ _ hnd2.2, revStep_fold_count, depsOf_cons]
    by_cases hk : k = p
    · subst hk
      rw [if_pos rfl, if_pos rfl, depsOf_eq_nil_of_not_key hnd2.1]
      simp
    · rw [if_neg hk, if_neg (fun h : p = k => hk h.symm)]
      omega

theorem buildRev_deg {G : List (Pkg × List Pkg)}
    (hnd : (keysOf G).Nodup) (q : Pkg) :
    (buildRev G).2 q = ((depsOf G q).length : Int) := by
  unfold buildRev
  rw [buildRev_fold_deg G _ q hnd]
  simp

theorem buildRev_count {G : List (Pkg × List Pkg)}
    (hnd : (keysOf G).Nodup) (e p : Pkg) :
    List.count p ((buildRev G).1 e) = List.count e (depsOf G p) := by
  unfold buildRev
  rw [buildRev_fold_count G _ e p hnd]
  simp


theorem decAll_spec :
    ∀ (lst : List Pkg) (deg : Pkg → Int),
      (∀ q, (List.count q lst : Int) ≤ deg q) →
      (∀ q, (decAll deg lst).1 q = deg q - List.count q lst) ∧
      (∀ q, q ∈ (decAll deg lst).2 ↔
        (q ∈ lst ∧ deg q = List.count q lst)) ∧
      (decAll deg lst).2.Nodup := by
  intro lst
  induction lst with
  | nil =>
    intro deg _
    exact ⟨fun q => by simp [decAll], fun q => by simp [decAll],
      by simp [decAll]⟩
  | cons x rest ih =>
    intro deg h
    have hupd_self : updateF deg x (deg x - 1) x = deg x - 1 := by
      simp [updateF]
    have hupd_ne : ∀ q, q ≠ x → updateF deg x (deg x - 1) q = deg q := by
      intro q hq
      simp [updateF, hq]
    have hcnt_self : List.count x (x :: rest) = List.count x rest + 1 := by
      simp [List.count_cons]
    have hcnt_ne : ∀ q, q ≠ x →
        List.count q (x :: rest) = List.count q rest := by
      intro q hq
      simp [List.count_cons, hq]
    have hrec_hyp : ∀ q,
        (List.count q rest : Int) ≤ (updateF deg x (deg x - 1)) q := by
      intro q
      by_cases hq : q = x
      · subst hq
        have hle := h q
        rw [hcnt_self] at hle
        rw [hupd_self]
        push_cast at hle ⊢
        omega
      · have hle := h q
        rw [hcnt_ne q hq] at hle
        rw [hupd_ne q hq]
        exact hle
    obtain ⟨ih1, ih2, ih3⟩ := ih (updateF deg x (deg x - 1)) hrec_hyp
    have hstep : decAll deg (x :: rest) =
        (if deg x - 1 = 0 then
          ((decAll (updateF deg x (deg x - 1)) rest).1,
            x :: (decAll (updateF deg x (deg x - 1)) rest).2)
         else decAll (updateF deg x (deg x - 1)) rest) := by
      simp [decAll]
    refine ⟨?_, ?_, ?_⟩
    · intro q
      rw [hstep]
      have hkey : (decAll (updateF deg x (deg x - 1)) rest).1 q =
          deg q - List.count q (x :: rest) := by
        rw [ih1 q]
        by_cases hq : q = x
        · subst hq
          rw [hupd_self, hcnt_self]
          push_cast
          omega
        · rw [hupd_ne q hq, hcnt_ne q hq]
      split_ifs with hv
      · exact hkey
      · exact hkey
    · intro q
      rw [hstep]
      split_ifs with hv
      · by_cases hq : q = x
        · subst hq
          have hc0 : List.count q rest = 0 := by
            have hle := hrec_hyp q
            rw [hupd_self] at hle
            omega
          apply iff_of_true (List.mem_cons_self _ _)
          refine ⟨List.mem_cons_self _ _, ?_⟩
          rw [hcnt_self, hc0]
          push_cast
          omega
        · show q ∈ x :: _ ↔ _
          rw [List.mem_cons]
          constructor
          · rintro (rfl | hq2)
            · exact absurd rfl hq
            · obtain ⟨hmem, harith⟩ := (ih2 q).mp hq2
              rw [hupd_ne q hq] at harith
              exact ⟨List.mem_cons_of_mem _ hmem,
                by rw [hcnt_ne q hq]; exact harith⟩
          · rintro ⟨hmem, harith⟩
            right
            rcases List.mem_cons.mp hmem with rfl | hmem2
            · exact absurd rfl hq
            · apply (ih2 q).mpr
              rw [hcnt_ne q hq] at harith
              exact ⟨hmem2, by rw [hupd_ne q hq]; exact harith⟩
      · by_cases hq : q = x
        · subst hq
          rw [ih2 q, hupd_self]
          constructor
          · rintro ⟨hmem, harith⟩
            refine ⟨List.mem_cons_self _ _, ?_⟩
            rw [hcnt_self]
            push_cast
            push_cast at harith
            omega
          · rintro ⟨-, harith⟩
            rw [hcnt_self] at harith
            have hc : (List.count q rest : Int) = deg q - 1 := by
              push_cast at harith ⊢
              omega
            have hpos : 0 < List.count q rest := by
              by_contra hc2
              have : List.count q rest = 0 := by omega
              rw [this] at hc
              simp at hc
              exact hv (by omega)
            exact ⟨List.count_pos_iff.mp hpos, by push_cast; omega⟩
        · rw [ih2 q, hupd_ne q hq, hcnt_ne q hq, List.mem_cons]
          constructor
          · rintro ⟨hmem, harith⟩
            exact ⟨Or.inr hmem, harith⟩
          · rintro ⟨hmem, harith⟩
            rcases hmem with rfl | hmem2
            · exact absurd rfl hq
            · exact ⟨hmem2, harith⟩
    · rw [hstep]
      split_ifs with hv
      · refine List.nodup_cons.mpr ⟨?_, ih3⟩
        intro hc
        obtain ⟨hmem, harith⟩ := (ih2 x).mp hc
        rw [hupd_self, hv] at harith
        have : List.count x rest = 0 := by omega
        exact (List.count_eq_zero.mp this) hmem
      · exact ih3

theorem ready_exists (G : List (Pkg × List Pkg)) (nodes TopoL : List Pkg)
    (hsrc : ∀ p d, edgeIn G p d → p ∈ TopoL ∧ d ∈ TopoL ∧
      TopoL.indexOf d < TopoL.indexOf p)
    (htgt : ∀ p d, edgeIn G p d → d ∈ nodes)
    (result : List Pkg)
    (hleft : ∃ x ∈ nodes, x ∉ result) :
    ∃ r ∈ nodes, r ∉ result ∧
      ((depsOf G r).filter (fun z => z ∉ result)).length = 0 := by
  by_cases hout : ∃ x ∈ nodes, x ∉ result ∧ x ∉ TopoL
  · obtain ⟨x, hxn, hxr, hxT⟩ := hout
    refine ⟨x, hxn, hxr, ?_⟩
    cases hdx : depsOf G x with
    | nil => simp [hdx]
    | cons e es =>
      have hedge : edgeIn G x e := by
        unfold edgeIn
        rw [hdx]
        exact List.mem_cons_self e es
      exact absurd (hsrc x e hedge).1 hxT
  · push_neg at hout
    obtain ⟨x0, hx0n, hx0r⟩ := hleft
    have hSne : x0 ∈ nodes.filter (fun z => z ∉ result) := by
      rw [List.mem_filter]
      exact ⟨hx0n, by simpa using hx0r⟩
    obtain ⟨r, hr⟩ : ∃ r, r ∈ List.argmin TopoL.indexOf
        (nodes.filter (fun z => z ∉ result)) := by
      cases hm : List.argmin TopoL.indexOf
          (nodes.filter (fun z => z ∉ result)) with
      | none =>
        rw [List.argmin_eq_none] at hm
        rw [hm] at hSne
        exact absurd hSne (List.not_mem_nil x0)
      | some r => exact ⟨r, rfl⟩
    have hrS := List.argmin_mem hr
    rw [List.mem_filter] at hrS
    obtain ⟨hrn, hrr⟩ := hrS
    have hrr2 : r ∉ result := by simpa using hrr
    refine ⟨r, hrn, hrr2, ?_⟩
    rw [List.length_eq_zero, List.filter_eq_nil_iff]
    intro d hd
    simp only [decide_eq_true_eq, not_not]
    by_contra hdr
    have hedge : edgeIn G r d := hd
    obtain ⟨hrT, hdT, hidx⟩ := hsrc r d hedge
    have hdS : d ∈ nodes.filter (fun z => z ∉ result) := by
      rw [List.mem_filter]
      exact ⟨htgt r d hedge, by simpa using hdr⟩
    have := List.le_of_mem_argmin hdS hr
    omega

theorem popLoop_zero (rg : Pkg → List Pkg) (deg : Pkg → Int)
    (queue result : List Pkg) :
    popLoop rg 0 deg queue result = result := rfl

theorem popLoop_succ_nil (rg : Pkg → List Pkg) {queue : List Pkg}
    (fuel : Nat) (deg : Pkg → Int) (result : List Pkg)
    (h : List.insertionSort pkgLeP queue = []) :
    popLoop rg (fuel + 1) deg queue result = result := by
  simp [popLoop, h]

theorem popLoop_succ_cons (rg : Pkg → List Pkg) {queue : List Pkg}
    {node : Pkg} {rest : List Pkg} (fuel : Nat) (deg : Pkg → Int)
    (result : List Pkg)
    (h : List.insertionSort pkgLeP queue = node :: rest) :
    popLoop rg (fuel + 1) deg queue result =
      popLoop rg fuel (decAll deg (rg node)).1
        (rest ++ (decAll deg (rg node)).2) (result ++ [node]) := by
  simp [popLoop, h]

theorem popLoop_complete
    (G : List (Pkg × List Pkg)) (nodes TopoL : List Pkg)
    (hkeys : (keysOf G).Nodup)
    (hnodes : nodes.Nodup)
    (hsrcn : ∀ p d, edgeIn G p d → p ∈ nodes)
    (htgtn : ∀ p d, edgeIn G p d → d ∈ nodes)
    (htopo : ∀ p d, edgeIn G p d → p ∈ TopoL ∧ d ∈ TopoL ∧
      TopoL.indexOf d < TopoL.indexOf p) :
    ∀ (fuel : Nat) (deg : Pkg → Int) (queue result : List Pkg),
      (∀ q, deg q =
        (((depsOf G q).filter (fun z => z ∉ result)).length : Int)) →
      (∀ x, x ∈ queue ↔ (x ∈ nodes ∧ x ∉ result ∧ deg x = 0)) →
      queue.Nodup →
      result.Nodup →
      (∀ x ∈ result, x ∈ nodes) →
      (∀ p, p ∈ result → ∀ d, edgeIn G p d →
        d ∈ result ∧ result.indexOf d < result.indexOf p) →
      nodes.length ≤ fuel + result.length →
      (popLoop (buildRev G).1 fuel deg queue result).Perm nodes ∧
      (∀ p, p ∈ popLoop (buildRev G).1 fuel deg queue result →
        ∀ d, edgeIn G p d →
          d ∈ popLoop (buildRev G).1 fuel deg queue result ∧
          (popLoop (buildRev G).1 fuel deg queue result).indexOf d <
            (popLoop (buildRev G).1 fuel deg queue result).indexOf p) := by
  intro fuel
  induction fuel with
  | zero =>
    intro deg queue result hdeg hqueue hqn hrn hrsub hord hlen
    rw [popLoop_zero]
    constructor
    · exact (List.subperm_of_subset hrn
        (fun x hx => hrsub x hx)).perm_of_length_le (by simpa using hlen)
    · exact hord
  | succ fuel ih =>
    intro deg queue result hdeg hqueue hqn hrn hrsub hord hlen
    have hdeps0 : ∀ q, deg q = 0 → ∀ d, edgeIn G q d → d ∈ result := by
      intro q hq d hd
      have h1 := hdeg q
      rw [hq] at h1
      have hlen0 : ((depsOf G q).filter (fun z => z ∉ result)).length = 0 :=
        by exact_mod_cast h1.symm
      have hnil := List.length_eq_zero.mp hlen0
      rw [List.filter_eq_nil_iff] at hnil
      have := hnil d hd
      simpa using this
    cases hsort : List.insertionSort pkgLeP queue with
    | nil =>
      have hqnil : queue = [] := by
        have hpp := List.perm_insertionSort pkgLeP queue
        rw [hsort] at hpp
        exact hpp.nil_eq.symm
      rw [popLoop_succ_nil _ fuel deg result hsort]
      by_cases hall : ∀ x ∈ nodes, x ∈ result
      · constructor
        · exact (List.subperm_of_subset hrn (fun x hx => hrsub x hx)).antisymm
            (List.subperm_of_subset hnodes (fun x hx => hall x hx))
        · exact hord
      · push_neg at hall
        obtain ⟨x, hxn, hxr⟩ := hall
        obtain ⟨r, hrn2, hrr, hr0⟩ :=
          ready_exists G nodes TopoL htopo htgtn result ⟨x, hxn, hxr⟩
        exfalso
        have hrq : r ∈ queue :=
          (hqueue r).mpr ⟨hrn2, hrr, by rw [hdeg r, hr0]; exact Int.natCast_zero⟩
        rw [hqnil] at hrq
        exact List.not_mem_nil r hrq
    | cons m rest =>
      have hp : (m :: rest).Perm queue := by
        have := List.perm_insertionSort pkgLeP queue
        rwa [hsort] at this
      have hmq : m ∈ queue := hp.subset (List.mem_cons_self m rest)
      obtain ⟨hmn, hmr, hm0⟩ := (hqueue m).mp hmq
      have hsortnd : (m :: rest).Nodup := hp.nodup_iff.mpr hqn
      have hmrest : m ∉ rest := (List.nodup_cons.mp hsortnd).1
      have hrestnd : rest.Nodup := (List.nodup_cons.mp hsortnd).2
      have hcount : ∀ q, List.count q ((buildRev G).1 m) =
          List.count m (depsOf G q) := fun q => buildRev_count hkeys m q
      have hdec_hyp : ∀ q,
          (List.count q ((buildRev G).1 m) : Int) ≤ deg q := by
        intro q
        rw [hcount q, hdeg q]
        have hsplit := length_filter_notmem_split (depsOf G q) result m hmr
        push_cast
        omega
      obtain ⟨hd1, hd2, hd3⟩ := decAll_spec ((buildRev G).1 m) deg hdec_hyp
      have hmdeps : ∀ d, edgeIn G m d → d ∈ result := hdeps0 m hm0
      rw [popLoop_succ_cons _ fuel deg result hsort]
      apply ih (decAll deg ((buildRev G).1 m)).1
        (rest ++ (decAll deg ((buildRev G).1 m)).2) (result ++ [m])
      · intro q
        rw [hd1 q, hcount q, hdeg q]
        have hsplit := length_filter_notmem_split (depsOf G q) result m hmr
        push_cast
        omega
      · intro x
        rw [List.mem_append]
        constructor
        · rintro (hx | hx)
          · have hxq : x ∈ queue := hp.subset (List.mem_cons_of_mem m hx)
            obtain ⟨hxn, hxr, hx0⟩ := (hqueue x).mp hxq
            have hxm : x ≠ m := fun hh => hmrest (hh ▸ hx)
            refine ⟨hxn, ?_, ?_⟩
            · rw [List.mem_append, List.mem_singleton]
              rintro (hc | hc)
              · exact hxr hc
              · exact hxm hc
            · have hcm : List.count m (depsOf G x) = 0 := by
                by_contra hc
                have hmem : m ∈ depsOf G x :=
                  List.count_pos_iff.mp (Nat.pos_of_ne_zero hc)
                exact hmr (hdeps0 x hx0 m hmem)
              rw [hd1 x, hx0, hcount x, hcm]
              simp
          · obtain ⟨hxin, harith⟩ := (hd2 x).mp hx
            have hpos : 0 < List.count x ((buildRev G).1 m) :=
              List.count_pos_iff.mpr hxin
            have hmem : m ∈ depsOf G x := by
              rw [hcount x] at hpos
              exact List.count_pos_iff.mp hpos
            have hedge : edgeIn G x m := hmem
            have hxn : x ∈ nodes := hsrcn x m hedge
            have hxr : x ∉ result := by
              intro hc
              exact hmr (hord x hc m hedge).1
            have hxm : x ≠ m := by
              intro hh
              rw [hh] at hedge
              exact hmr (hmdeps m hedge)
            refine ⟨hxn, ?_, ?_⟩
            · rw [List.mem_append, List.mem_singleton]
              rintro (hc | hc)
              · exact hxr hc
              · exact hxm hc
            · rw [hd1 x, harith]
              ring
        · rintro ⟨hxn, hxr', hx20⟩
          have hxr : x ∉ result :=
            fun hc => hxr' (List.mem_append.mpr (Or.inl hc))
          have hxm : x ≠ m := fun hh => hxr' (List.mem_append.mpr
            (Or.inr (by rw [hh]; exact List.mem_singleton.mpr rfl)))
          have harith : deg x = (List.count x ((buildRev G).1 m) : Int) := by
            have h1 := hd1 x
            rw [hx20] at h1
            omega
          by_cases hc : List.count x ((buildRev G).1 m) = 0
          · have hx0 : deg x = 0 := by rw [harith, hc]; simp
            have hxq : x ∈ queue := (hqueue x).mpr ⟨hxn, hxr, hx0⟩
            have hxmr : x ∈ m :: rest := hp.symm.subset hxq
            rcases List.mem_cons.mp hxmr with hh | hh
            · exact absurd hh hxm
            · exact Or.inl hh
          · right
            exact (hd2 x).mpr
              ⟨List.count_pos_iff.mp (Nat.pos_of_ne_zero hc), harith⟩
      · rw [List.nodup_append]
        refine ⟨hrestnd, hd3, ?_⟩
        intro x hx1 hx2
        have hxq : x ∈ queue := hp.subset (List.mem_cons_of_mem m hx1)
        obtain ⟨-, -, hx0⟩ := (hqueue x).mp hxq
        obtain ⟨hxin, harith⟩ := (hd2 x).mp hx2
        have hpos : 0 < List.count x ((buildRev G).1 m) :=
          List.count_pos_iff.mpr hxin
        rw [hx0] at harith
        omega
      · rw [List.nodup_append]
        exact ⟨hrn, List.nodup_singleton m,
          fun a ha hb => hmr ((List.mem_singleton.mp hb) ▸ ha)⟩
      · intro x hx
        rcases List.mem_append.mp hx with h1 | h1
        · exact hrsub x h1
        · rw [List.mem_singleton.mp h1]
          exact hmn
      · intro p hpmem d hd
        rcases List.mem_append.mp hpmem with h1 | h1
        · obtain ⟨hd_in, hidx⟩ := hord p h1 d hd
          refine ⟨List.mem_append.mpr (Or.inl hd_in), ?_⟩
          rw [List.indexOf_append_of_mem hd_in,
              List.indexOf_append_of_mem h1]
          exact hidx
        · rw [List.mem_singleton.mp h1] at hd ⊢
          have hd_in : d ∈ result := hmdeps d hd
          refine ⟨List.mem_append.mpr (Or.inl hd_in), ?_⟩
          rw [List.indexOf_append_of_mem hd_in,
              List.indexOf_append_of_not_mem hmr]
          have hlt : List.indexOf d result < result.length :=
            List.indexOf_lt_length.mpr hd_in
          simp only [List.indexOf_cons_self]
          omega
      · rw [List.length_append, List.length_singleton]
        omega

theorem build_all_packages_nodup (P : Provider) (root_package : Pkg) :
    (build_graph_dfs P root_package).all_packages.Nodup := by
  apply gpred_dfsAux (fun g => g.all_packages.Nodup)
    (fun g p d h => insertPkg_nodup (insertPkg_nodup h p) d)
    (fun g c h => h) P
  exact List.nodup_nil

theorem build_keys_nodup (P : Provider) (root_package : Pkg) :
    (keysOf (build_graph_dfs P root_package).graph).Nodup := by
  apply gpred_dfsAux (fun g => (keysOf g.graph).Nodup) ?hadd
    (fun g c h => h) P
  · exact List.nodup_nil
  · intro g p d h
    show (keysOf (assocAppend g.graph p d)).Nodup
    rw [keysOf_assocAppend_eq]
    split_ifs with hp
    · exact h
    · simp [List.nodup_append, h, hp]

theorem build_endpoints_in_all (P : Provider) (root_package : Pkg) :
    (∀ x ∈ keysOf (build_graph_dfs P root_package).graph,
      x ∈ (build_graph_dfs P root_package).all_packages) ∧
    (∀ x ∈ targetsOf (build_graph_dfs P root_package).graph,
      x ∈ (build_graph_dfs P root_package).all_packages) := by
  apply gpred_dfsAux (fun g =>
      (∀ x ∈ keysOf g.graph, x ∈ g.all_packages) ∧
      (∀ x ∈ targetsOf g.graph, x ∈ g.all_packages)) ?hadd
    (fun g c h => h) P
  · exact ⟨fun x hx => absurd hx (List.not_mem_nil x),
      fun x hx => absurd hx (List.not_mem_nil x)⟩
  · rintro g p d ⟨hk, ht⟩
    constructor
    · intro x hx
      rcases mem_keysOf_assocAppend.mp hx with h1 | rfl
      · exact mem_insertPkg.mpr (Or.inl (mem_insertPkg.mpr (Or.inl (hk x h1))))
      · exact mem_insertPkg.mpr (Or.inl (mem_insertPkg.mpr (Or.inr rfl)))
    · intro x hx
      rcases mem_targetsOf_assocAppend.mp hx with h1 | rfl
      · exact mem_insertPkg.mpr (Or.inl (mem_insertPkg.mpr (Or.inl (ht x h1))))
      · exact mem_insertPkg.mpr (Or.inr rfl)

theorem build_topo (P : Provider) (root_package : Pkg)
    (hcyc : (build_graph_dfs P root_package).cycles = []) :
    ∃ M : List Pkg, M.Nodup ∧
      ∀ p d, edgeIn (build_graph_dfs P root_package).graph p d →
        p ∈ M ∧ d ∈ M ∧ M.indexOf d < M.indexOf p := by
  have hT0 : TopoInv
      { g := emptyGraph, visited := [], stack := [], path := [] } [] := by
    refine ⟨List.nodup_nil, ?_, ?_, ?_⟩
    · intro x
      simp
    · intro p d h
      exact absurd h (by simp [emptyGraph, edgeIn, depsOf, lookupA])
    · intro p d h
      exact absurd h (by simp [emptyGraph, edgeIn, depsOf, lookupA])
  have hcount : unseenU (univList P root_package).toFinset [] <
      (univList P root_package).length + 1 := by
    unfold unseenU
    simp only [List.toFinset_nil, Finset.sdiff_empty]
    calc (univList P root_package).toFinset.card
        ≤ (univList P root_package).length := List.toFinset_card_le _
      _ < (univList P root_package).length + 1 := Nat.lt_succ_self _
  obtain ⟨M, hTM, -⟩ := dfs_topo P (univList P root_package).toFinset
    (goodU_univList P root_package) ((univList P root_package).length + 1)
    { g := emptyGraph, visited := [], stack := [], path := [] }
    root_package [] (root_mem_univList P root_package) hcount hT0 hcyc
  rw [List.nil_append] at hTM
  obtain ⟨h1, h2, h3, h4⟩ := hTM
  have hstk : (dfsAux P ((univList P root_package).length + 1)
      { g := emptyGraph, visited := [], stack := [], path := [] }
      root_package).stack = [] :=
    (ext_dfsAux P ((univList P root_package).length + 1) _ root_package).1
  refine ⟨M, h1, ?_⟩
  intro p d hpd
  have hpv : p ∈ (dfsAux P ((univList P root_package).length + 1)
      { g := emptyGraph, visited := [], stack := [], path := [] }
      root_package).visited := h4 p d hpd
  have hpM : p ∈ M := (h2 p).mpr ⟨hpv, by rw [hstk]; exact List.not_mem_nil p⟩
  obtain ⟨hdM, hidx⟩ := h3 p d hpd hpM
  exact ⟨hpM, hdM, hidx⟩

theorem get_load_order_complete (g : DependencyGraph) (root_package : Pkg)
    (TopoL : List Pkg)
    (hcyc0 : g.cycles = [])
    (hpk : g.all_packages.Nodup)
    (hkeys : (keysOf g.graph).Nodup)
    (hkeysub : ∀ x ∈ keysOf g.graph, x ∈ g.all_packages)
    (htgtsub : ∀ x ∈ targetsOf g.graph, x ∈ g.all_packages)
    (htopo : ∀ p d, edgeIn g.graph p d → p ∈ TopoL ∧ d ∈ TopoL ∧
      TopoL.indexOf d < TopoL.indexOf p) :
    ∃ res, get_load_order g root_package = .ok res ∧
      res.Perm (insertPkg g.all_packages root_package) ∧
      (∀ p d, edgeIn g.graph p d →
        d ∈ res ∧ res.indexOf d < res.indexOf p) := by
  have hnc : has_cycles g = false := by simp [has_cycles, hcyc0]
  have hnodesnd : (insertPkg g.all_packages root_package).Nodup :=
    insertPkg_nodup hpk _
  have hsrcn : ∀ p d, edgeIn g.graph p d →
      p ∈ insertPkg g.all_packages root_package := fun p d h =>
    mem_insertPkg.mpr (Or.inl (hkeysub p (mem_keysOf_of_depsOf h)))
  have htgtn : ∀ p d, edgeIn g.graph p d →
      d ∈ insertPkg g.all_packages root_package := fun p d h =>
    mem_insertPkg.mpr (Or.inl (htgtsub d (mem_targetsOf_of_mem_depsOf h)))
  have hdeg0 : ∀ q, (buildRev g.graph).2 q =
      (((depsOf g.graph q).filter
        (fun z => z ∉ ([] : List Pkg))).length : Int) := by
    intro q
    rw [buildRev_deg hkeys, filter_notmem_nil]
  have hqueue0 : ∀ x,
      x ∈ (insertPkg g.all_packages root_package).filter
        (fun n => (buildRev g.graph).2 n = 0) ↔
      (x ∈ insertPkg g.all_packages root_package ∧
        x ∉ ([] : List Pkg) ∧ (buildRev g.graph).2 x = 0) := by
    intro x
    rw [List.mem_filter]
    simp
  obtain ⟨hperm, hord⟩ := popLoop_complete g.graph
    (insertPkg g.all_packages root_package) TopoL hkeys hnodesnd hsrcn htgtn
    htopo (insertPkg g.all_packages root_package).length (buildRev g.graph).2
    ((insertPkg g.all_packages root_package).filter
      (fun n => (buildRev g.graph).2 n = 0)) []
    hdeg0 hqueue0 (hnodesnd.filter _) List.nodup_nil
    (fun x hx => absurd hx (List.not_mem_nil x))
    (fun p hp => absurd hp (List.not_mem_nil p))
    (by omega)
  refine ⟨popLoop (buildRev g.graph).1
      (insertPkg g.all_packages root_package).length (buildRev g.graph).2
      ((insertPkg g.all_packages root_package).filter
        (fun n => (buildRev g.graph).2 n = 0)) [], ?_, hperm, ?_⟩
  · show get_load_order g root_package = _
    unfold get_load_order
    rw [if_neg (show ¬ has_cycles g = true by simp [hnc])]
    have hlen : (popLoop (buildRev g.graph).1
        (insertPkg g.all_packages root_package).length (buildRev g.graph).2
        ((insertPkg g.all_packages root_package).filter
          (fun n => (buildRev g.graph).2 n = 0)) []).length =
        (insertPkg g.all_packages root_package).length := hperm.length_eq
    show (if _ ≠ _ then _ else _) = _
    rw [if_neg (by
      show ¬ _ ≠ _
      rw [not_not]
      exact hlen)]
    rfl
  · intro p d h
    have hpres : p ∈ popLoop (buildRev g.graph).1
        (insertPkg g.all_packages root_package).length (buildRev g.graph).2
        ((insertPkg g.all_packages root_package).filter
          (fun n => (buildRev g.graph).2 n = 0)) [] :=
      hperm.mem_iff.mpr (hsrcn p d h)
    exact hord p hpres d h

/-- C1: for every provider and root, when the built graph has an empty
recorded cycle list, `get_load_order(root)` succeeds and returns a sequence
that is a permutation of exactly the graph node set united with the root
(each node exactly once), in which, for every stored edge `a -> b`, `b`
occurs at an earlier index than `a`. -/
theorem c1_load_order_topological (P : Provider) (root_package : Pkg)
    (hcyc : (build_graph_dfs P root_package).cycles = []) :
    ∃ res, get_load_order (build_graph_dfs P root_package) root_package =
        .ok res ∧
      res.Nodup ∧
      (∀ x, x ∈ res ↔
        (x ∈ get_all_nodes (build_graph_dfs P root_package) ∨
          x = root_package)) ∧
      res.Perm (insertPkg (build_graph_dfs P root_package).all_packages
        root_package) ∧
      (∀ a b, edgeIn (build_graph_dfs P root_package).graph a b →
        res.indexOf b < res.indexOf a) := by
  obtain ⟨TopoL, hTnd, htopo⟩ := build_topo P root_package hcyc
  obtain ⟨hkeysub, htgtsub⟩ := build_endpoints_in_all P root_package
  obtain ⟨res, hok, hperm, hord⟩ := get_load_order_complete
    (build_graph_dfs P root_package) root_package TopoL hcyc
    (build_all_packages_nodup P root_package)
    (build_keys_nodup P root_package) hkeysub htgtsub
    (fun p d h => htopo p d h)
  have hnodesnd :
      (insertPkg (build_graph_dfs P root_package).all_packages
        root_package).Nodup :=
    insertPkg_nodup (build_all_packages_nodup P root_package) _
  refine ⟨res, hok, hperm.nodup_iff.mpr hnodesnd, ?_, hperm,
    fun a b h => (hord a b h).2⟩
  intro x
  rw [hperm.mem_iff, mem_insertPkg]
  rfl

theorem c1_witness :
    (build_graph_dfs scenarioA "A").cycles = [] ∧
    (∃ res, get_load_order (build_graph_dfs scenarioA "A") "A" = .ok res ∧
      res.Nodup ∧
      (∀ x, x ∈ res ↔
        (x ∈ get_all_nodes (build_graph_dfs scenarioA "A") ∨ x = "A")) ∧
      res.Perm (insertPkg (build_graph_dfs scenarioA "A").all_packages "A") ∧
      (∀ a b, edgeIn (build_graph_dfs scenarioA "A").graph a b →
        res.indexOf b < res.indexOf a)) :=
  ⟨by decide, c1_load_order_topological scenarioA "A" (by decide)⟩

/-- C8: for every graph built by `build_graph_dfs` whose recorded cycle list
is empty, the postcondition branch of `get_load_order` (the length-mismatch
error) is unreachable for any query root: Kahn's algorithm emits every
seeded node and the call returns `ok`. -/
theorem c8_postcondition_unreachable (P : Provider)
    (root_package root_query : Pkg)
    (hcyc : (build_graph_dfs P root_package).cycles = []) :
    ∃ res, get_load_order (build_graph_dfs P root_package) root_query =
      .ok res := by
  obtain ⟨TopoL, hTnd, htopo⟩ := build_topo P root_package hcyc
  obtain ⟨hkeysub, htgtsub⟩ := build_endpoints_in_all P root_package
  obtain ⟨res, hok, -, -⟩ := get_load_order_complete
    (build_graph_dfs P root_package) root_query TopoL hcyc
    (build_all_packages_nodup P root_package)
    (build_keys_nodup P root_package) hkeysub htgtsub
    (fun p d h => htopo p d h)
  exact ⟨res, hok⟩

theorem c8_witness :
    (build_graph_dfs scenarioA "A").cycles = [] ∧
    (∃ res, get_load_order (build_graph_dfs scenarioA "A") "Q" = .ok res) :=
  ⟨by decide, c8_postcondition_unreachable scenarioA "A" "Q" (by decide)⟩

theorem nodupInv_processList (f : BuildState → Pkg → BuildState) (pkg : Pkg)
    (hfI : ∀ st d, NodupInv st → NodupInv (f st d))
    (hffix : ∀ st d q, q ∈ st.visited →
      depsOf (f st d).g.graph q = depsOf st.g.graph q)
    (hfmono : ∀ st d, ∃ t, (f st d).visited = st.visited ++ t) :
    ∀ (deps : List Pkg) (st : BuildState), pkg ∈ st.visited →
      NodupInv st → (depsOf st.g.graph pkg ++ deps).Nodup →
      NodupInv (processList f pkg st deps) := by
  intro deps
  induction deps with
  | nil => intro st _ hI _; exact hI
  | cons d rest ih =>
    intro st hq hI hnd
    have hdeq : ∀ q, depsOf (addEdgeSt st pkg d).g.graph q =
        if q = pkg then depsOf st.g.graph q ++ [d] else depsOf st.g.graph q := by
      intro q
      show depsOf (assocAppend st.g.graph pkg d) q = _
      rw [depsOf_assocAppend]
    have hI1 : NodupInv (addEdgeSt st pkg d) := by
      constructor
      · intro p
        rw [hdeq p]
        by_cases hp : p = pkg
        · rw [if_pos hp, hp]
          exact hnd.sublist
            (List.Sublist.append_left ((List.nil_sublist rest).cons₂ d) _)
        · rw [if_neg hp]
          exact hI.1 p
      · intro p hp
        have hp' : p ∉ st.visited := hp
        have hpne : p ≠ pkg := fun hc => hp' (hc ▸ hq)
        rw [hdeq p, if_neg hpne]
        exact hI.2 p hp'
    have hq1 : pkg ∈ (addEdgeSt st pkg d).visited := hq
    show NodupInv (processList f pkg (f (addEdgeSt st pkg d) d) rest)
    refine ih _ ?_ (hfI _ d hI1) ?_
    · obtain ⟨t, ht⟩ := hfmono (addEdgeSt st pkg d) d
      rw [ht]
      exact List.mem_append.mpr (Or.inl hq1)
    · rw [hffix _ d pkg hq1, hdeq pkg, if_pos rfl, List.append_assoc,
        List.singleton_append]
      exact hnd

theorem nodupInv_dfsAux (P : Provider)
    (hP : ∀ x l, getDeps P x = some l → l.Nodup) :
    ∀ (fuel : Nat) (st : BuildState) (x : Pkg),
      NodupInv st → NodupInv (dfsAux P fuel st x) := by
  intro fuel
  induction fuel with
  | zero => intro st x h; exact h
  | succ fuel ih =>
    intro st x h
    by_cases h1 : x ∈ st.stack
    · rw [dfs_stack_step P fuel st x h1]
      split_ifs <;> exact h
    · by_cases h2 : x ∈ st.visited
      · rw [dfs_visited_step P fuel st x h1 h2]
        exact h
      · rw [dfs_fresh_step P fuel st x h1 h2]
        have hmark : NodupInv (markNode st x) :=
          ⟨h.1, fun p hp =>
            h.2 p (fun hc => hp (List.mem_append.mpr (Or.inl hc)))⟩
        cases hd : getDeps P x with
        | none => exact hmark
        | some deps =>
          have hres : NodupInv
              (processList (dfsAux P fuel) x (markNode st x) deps) := by
            refine nodupInv_processList (dfsAux P fuel) x
              (fun st d hI => ih st d hI)
              (fun st d q hq => dfs_fixes_visited_deps P fuel st d q hq)
              (fun st d => (ext_dfsAux P fuel st d).2.2.1)
              deps (markNode st x) ?_ hmark ?_
            · exact List.mem_append.mpr (Or.inr (List.mem_singleton.mpr rfl))
            · have hz : depsOf (markNode st x).g.graph x = [] := h.2 x h2
              rw [hz, List.nil_append]
              exact hP x deps hd
          exact hres

/-- C7 counterexample: `add_dependency` appends unconditionally, so a provider
answer that lists the same dependency twice yields a stored edge list with a
duplicate: building from the provider that maps `A` to `[B, B]` and `B` to
`[]` stores the edge list `[B, B]` for `A`. -/
theorem c7_counterexample :
    depsOf (build_graph_dfs scenarioDup "A").graph "A" = ["B", "B"] ∧
    ¬ (depsOf (build_graph_dfs scenarioDup "A").graph "A").Nodup := by
  decide

/-- C7 (amended): duplicates inside a provider answer ARE re-added (the code
has no per-edge dedup check); what holds is that the build introduces no
duplicates of its own: whenever every provider answer is itself
duplicate-free, every per-node edge list of the built graph is
duplicate-free. -/
theorem c7_nodup_edges_amended (P : Provider) (root_package : Pkg)
    (hT : ∀ e ∈ P, (e.2.getD []).Nodup) (p : Pkg) :
    (depsOf (build_graph_dfs P root_package).graph p).Nodup := by
  have hP : ∀ x l, getDeps P x = some l → l.Nodup := by
    intro x l h
    cases hl : lookupA P x with
    | none =>
      unfold getDeps at h
      rw [hl] at h
      exact absurd h (by simp)
    | some r =>
      unfold getDeps at h
      rw [hl] at h
      have hr : r = some l := h
      have hmem := lookupA_mem hl
      have := hT (x, r) hmem
      rw [hr] at this
      exact this
  have h := nodupInv_dfsAux P hP ((univList P root_package).length + 1)
    { g := emptyGraph, visited := [], stack := [], path := [] } root_package
    ⟨fun _ => List.nodup_nil, fun _ _ => rfl⟩
  exact h.1 p

theorem c7_witness :
    (∀ e ∈ scenarioA, (e.2.getD []).Nodup) ∧
    (depsOf (build_graph_dfs scenarioA "A").graph "A").Nodup :=
  ⟨by decide, c7_nodup_edges_amended scenarioA "A" (by decide) "A"⟩

end DepViz
